import Mathlib

/-!
Verification development for the repomix VS Code extension's selection
engine (`src/fileTree.ts`), its caches (`src/cache/FileTreeCache.ts`),
the pattern/size utilities (`src/repomixConfig.ts`) and the profile
store (`src/profileManager.ts`).

Modelling conventions (shallow embedding):
* A node identity (VS Code `Uri.toString()` / `fsPath`) is modelled as the
  list of its path segments (`Path := List String`).  Real file names never
  contain a separator, so segment lists are in bijection with the string
  keys the code uses, `Uri.joinPath` is list append, and the parent map is
  `List.dropLast`.
* JavaScript `Map` objects are modelled as association lists with
  first-match lookup; `Map.set` overwrites the first binding.
* `Date.now()` is passed in explicitly as `now : Nat`.
* Asynchronous fan-out (`Promise.all`) is linearised left to right; every
  sub-task writes distinct cache keys, so this is the canonical
  serialisation of the source's single-threaded interleaving.
* The VS Code test-environment shortcuts (`isTestEnvironment`) are modelled
  in their production (`false`) branch, and `console.*` logging is dropped.
-/

namespace Repomix

/-- A file-system identity: the segments of its absolute path. -/
abbrev Path := List String

/-- Segment-level prefix test (the intent of the code's `key.startsWith(dirPath)`
cache-invalidation test, which compares the string forms). -/
def pfx : Path → Path → Bool
  | [], _ => true
  | _ :: _, [] => false
  | a :: p, b :: q => a = b && pfx p q

theorem pfx_refl (p : Path) : pfx p p = true := by
  induction p with
  | nil => rfl
  | cons a p ih => simp [pfx, ih]

theorem pfx_append (p q : Path) : pfx p (p ++ q) = true := by
  induction p with
  | nil => rfl
  | cons a p ih => simp [pfx, ih]

theorem pfx_iff_isPrefixOf (p q : Path) : pfx p q = true ↔ p <+: q := by
  induction p generalizing q with
  | nil => simp [pfx]
  | cons a p ih =>
    cases q with
    | nil => simp [pfx]
    | cons b q =>
      simp [pfx, ih, List.cons_prefix_cons, And.comm]

/-- First-match association-list lookup (JS `Map.get`). -/
def mget {α : Type} (k : Path) : List (Path × α) → Option α
  | [] => Option.none
  | (k', v) :: r => if k' = k then some v else mget k r

/-- JS `Map.set`: overwrite the existing binding, else append. -/
def mset {α : Type} (k : Path) (v : α) : List (Path × α) → List (Path × α)
  | [] => [(k, v)]
  | (k', v') :: r => if k' = k then (k, v) :: r else (k', v') :: mset k v r

/-- JS `Map.delete`. -/
def mdel {α : Type} (k : Path) : List (Path × α) → List (Path × α)
  | [] => []
  | (k', v') :: r => if k' = k then mdel k r else (k', v') :: mdel k r

theorem mget_mset_self {α : Type} (k : Path) (v : α) (m : List (Path × α)) :
    mget k (mset k v m) = some v := by
  induction m with
  | nil => simp [mget, mset]
  | cons kv r ih =>
    obtain ⟨k', v'⟩ := kv
    by_cases h : k' = k <;> simp [mget, mset, h, ih]

theorem mget_mset_ne {α : Type} (k k₀ : Path) (v : α) (m : List (Path × α))
    (h : k₀ ≠ k) : mget k (mset k₀ v m) = mget k m := by
  induction m with
  | nil => simp [mget, mset, h]
  | cons kv r ih =>
    obtain ⟨k', v'⟩ := kv
    by_cases h' : k' = k₀ <;> simp [mget, mset, h'] <;>
      by_cases h'' : k' = k <;> simp_all [mget]

theorem mget_mem {α : Type} (k : Path) (v : α) (m : List (Path × α)) :
    mget k m = some v → (k, v) ∈ m := by
  induction m with
  | nil => simp [mget]
  | cons kv r ih =>
    obtain ⟨k', v'⟩ := kv
    by_cases h : k' = k <;> intro hg <;> simp [mget, h] at hg
    · subst h; simp [hg]
    · simp [ih hg]

theorem mem_mset {α : Type} (x : Path × α) (k : Path) (v : α)
    (m : List (Path × α)) : x ∈ mset k v m → x = (k, v) ∨ x ∈ m := by
  induction m with
  | nil => simp [mset]
  | cons kv r ih =>
    obtain ⟨k', v'⟩ := kv
    by_cases h : k' = k <;> intro hx <;> simp [mset, h] at hx <;>
      rcases hx with hx | hx <;> simp [hx]
    rcases ih hx with h' | h' <;> simp [h']

theorem mem_mdel {α : Type} (x : Path × α) (k : Path)
    (m : List (Path × α)) : x ∈ mdel k m → x ∈ m := by
  induction m with
  | nil => simp [mdel]
  | cons kv r ih =>
    obtain ⟨k', v'⟩ := kv
    by_cases h : k' = k <;> intro hx <;> simp [mdel, h] at hx
    · simp [ih hx]
    · rcases hx with hx | hx
      · simp [hx]
      · simp [ih hx]

theorem mget_mdel_self {α : Type} (k : Path) (m : List (Path × α)) :
    mget k (mdel k m) = Option.none := by
  induction m with
  | nil => simp [mget, mdel]
  | cons kv r ih =>
    obtain ⟨k', v'⟩ := kv
    by_cases h : k' = k <;> simp [mget, mdel, h, ih]

theorem mget_mdel_ne {α : Type} (k k₀ : Path) (m : List (Path × α))
    (h : k₀ ≠ k) : mget k (mdel k₀ m) = mget k m := by
  induction m with
  | nil => simp [mget, mdel]
  | cons kv r ih =>
    obtain ⟨k', v'⟩ := kv
    by_cases h' : k' = k₀
    · subst h'
      have hk : k' ≠ k := fun hc => h (hc ▸ rfl)
      simp [mdel, ih, mget, hk]
    · have hne : ¬(k = k₀) := fun hc => h hc.symm
      by_cases h'' : k' = k <;> simp [mget, mdel, h', h'', ih, hne]

/-!
## Pattern matching (`RepomixConfigUtil`, `src/repomixConfig.ts`)

`matchesPattern` builds a JavaScript `RegExp` from a glob pattern by a chain
of five global string replacements and tests it anchored (`^...$`) against
the normalized path.  We embed the replacement chain verbatim on character
lists and interpret the produced regular expression with a matcher for the
sub-language those replacements can emit: literal characters, escaped
characters, character classes, the wildcard dot, and postfix `*`.
-/

/-- One atom of the produced regular-expression sub-language. -/
inductive RAtom where
  | lit (c : Char)
  | dot
  | cls (neg : Bool) (cs : List Char)
deriving DecidableEq

/-- A regex element: an atom, optionally under a postfix `*`. -/
structure RItem where
  atom : RAtom
  star : Bool
deriving DecidableEq

/-- Does an atom match one character (ci = case-insensitive flag). -/
def amatch (ci : Bool) : RAtom → Char → Bool
  | .lit d, c => if ci then d.toLower = c.toLower else d = c
  | .dot, _ => true
  | .cls neg cs, c =>
    let mem := cs.any (fun m => if ci then m.toLower = c.toLower else m = c)
    if neg then !mem else mem

/-- Anchored regex match, fuel-bounded so that it evaluates by kernel
reduction; a step consumes an item or a character, so
`items.length + s.length + 1` fuel always suffices. -/
def matchFullAux (ci : Bool) : Nat → List RItem → List Char → Bool
  | 0, _, _ => false
  | _ + 1, [], s => s.isEmpty
  | _ + 1, ⟨_, false⟩ :: _, [] => false
  | f + 1, ⟨a, false⟩ :: r, c :: s => amatch ci a c && matchFullAux ci f r s
  | f + 1, ⟨_, true⟩ :: r, [] => matchFullAux ci f r []
  | f + 1, ⟨a, true⟩ :: r, c :: s =>
    matchFullAux ci f r (c :: s) || (amatch ci a c && matchFullAux ci f (⟨a, true⟩ :: r) s)

/-- Anchored regex match (`^items$` against the whole string). -/
def matchFull (ci : Bool) (items : List RItem) (s : List Char) : Bool :=
  matchFullAux ci (items.length + s.length + 1) items s

/-- Start-anchored regex match (fuel-bounded like `matchFullAux`). -/
def matchAtAux (ci : Bool) : Nat → List RItem → List Char → Bool
  | 0, _, _ => false
  | _ + 1, [], _ => true
  | _ + 1, ⟨_, false⟩ :: _, [] => false
  | f + 1, ⟨a, false⟩ :: r, c :: s => amatch ci a c && matchAtAux ci f r s
  | f + 1, ⟨_, true⟩ :: r, [] => matchAtAux ci f r []
  | f + 1, ⟨a, true⟩ :: r, c :: s =>
    matchAtAux ci f r (c :: s) || (amatch ci a c && matchAtAux ci f (⟨a, true⟩ :: r) s)

/-- Start-anchored regex match: do the items match some prefix of `s`. -/
def matchAt (ci : Bool) (items : List RItem) (s : List Char) : Bool :=
  matchAtAux ci (items.length + s.length + 1) items s

/-- Unanchored match (JS `RegExp.test` without anchors): match at any start. -/
def rtest (ci : Bool) (items : List RItem) : List Char → Bool
  | [] => matchAt ci items []
  | c :: s => matchAt ci items (c :: s) || rtest ci items s

/-- Parse a character class body up to the first unescaped `]`
(JS semantics: `]` right after `[`/`[^` closes an empty class).
Returns the member characters and the remaining input. -/
def parseCls : List Char → (List Char × List Char)
  | [] => ([], [])
  | ']' :: r => ([], r)
  | '\\' :: c :: r =>
    let (ms, rest) := parseCls r
    (c :: ms, rest)
  | '\\' :: [] => ([], [])
  | c :: r =>
    let (ms, rest) := parseCls r
    (c :: ms, rest)

/-- Parse the produced regular expression into items (fuel-bounded scan;
the fuel is sized to the input so it never runs out). -/
def parseRegexAux : Nat → List Char → List RItem
  | 0, _ => []
  | _ + 1, [] => []
  | fuel + 1, l =>
    let step : Option RAtom × List Char :=
      match l with
      | '\\' :: c :: r => (some (.lit c), r)
      | '\\' :: [] => (Option.none, [])
      | '[' :: '^' :: r =>
        let (ms, rest) := parseCls r
        (some (.cls true ms), rest)
      | '[' :: r =>
        let (ms, rest) := parseCls r
        (some (.cls false ms), rest)
      | '.' :: r => (some .dot, r)
      | c :: r => (some (.lit c), r)
      | [] => (Option.none, [])
    match step with
    | (Option.none, _) => []
    | (some a, rest) =>
      match rest with
      | '*' :: r2 => ⟨a, true⟩ :: parseRegexAux fuel r2
      | _ => ⟨a, false⟩ :: parseRegexAux fuel rest

/-- Parse a produced regular expression. -/
def parseRegex (l : List Char) : List RItem := parseRegexAux (l.length + 1) l

/-- Drop `pat` from the front of the input if it is a prefix. -/
def stripPfx? : List Char → List Char → Option (List Char)
  | [], l => some l
  | _ :: _, [] => Option.none
  | p :: ps, c :: cs => if p = c then stripPfx? ps cs else Option.none

/-- Leftmost, non-overlapping global replacement of a literal pattern
(JS `String.replace` with a `/literal/g` regex), fuel-bounded. -/
def replaceAllAux (pat repl : List Char) : Nat → List Char → List Char
  | 0, l => l
  | _ + 1, [] => []
  | fuel + 1, c :: r =>
    match stripPfx? pat (c :: r) with
    | some rest => repl ++ replaceAllAux pat repl fuel rest
    | Option.none => c :: replaceAllAux pat repl fuel r

/-- Global replacement of a literal pattern. -/
def replaceAll (pat repl l : List Char) : List Char :=
  replaceAllAux pat repl (l.length + 1) l

/-- `RepomixConfigUtil.matchesPattern` (src/repomixConfig.ts:346-361):
the pattern-to-regex replacement chain, verbatim, then an anchored test
against the separator-normalized path. -/
def matchesPattern (filePath pattern : String) : Bool :=
  let t1 := replaceAll "**".data ".*".data pattern.data
  let t2 := replaceAll "*".data "[^/]*".data t1
  let t3 := replaceAll "?".data "[^/]".data t2
  let t4 := replaceAll ".".data "\\.".data t3
  let t5 := replaceAll "/".data "[/\\\\]".data t4
  let normalized := filePath.data.map (fun c => if c = '\\' then '/' else c)
  matchFull false (parseRegex t5) normalized

/-- `RepomixConfigUtil.matchesAnyPattern`: first match wins. -/
def matchesAnyPattern (filePath : String) (patterns : List String) : Bool :=
  patterns.any (fun p => matchesPattern filePath p)

/-- The loaded repomix configuration: the aggregated ignore pattern list
(`getAllIgnorePatterns`) and the configured `maxFileSize`. -/
structure RepomixCfg where
  patterns : List String
  maxFileSize? : Option Nat

/-- `config.maxFileSize || 50000000`: JS falsiness makes `0` fall back too. -/
def maxSizeOf (cfg : RepomixCfg) : Nat :=
  match cfg.maxFileSize? with
  | Option.none => 50000000
  | some 0 => 50000000
  | some (m + 1) => m + 1

/-- `path.relative(workspaceRoot, filePath)` for descendants of the root. -/
def relSegs (R p : Path) : Path := if pfx R p then p.drop R.length else p

/-- The relative path in string form (forward-slash separators). -/
def relStr (R p : Path) : String := String.intercalate "/" (relSegs R p)

/-- `RepomixConfigUtil.shouldIgnoreFile` (production branch): match the
path relative to the workspace root against every ignore pattern. -/
def shouldIgnoreFile (cfg : RepomixCfg) (R p : Path) : Bool :=
  matchesAnyPattern (relStr R p) cfg.patterns

/-- `RepomixConfigUtil.isFileSizeValid` (production branch): a missing
stat (nonexistent file / stat error) fails closed; otherwise the byte
size must be at most the configured maximum. -/
def isFileSizeValid (cfg : RepomixCfg) (stat? : Option Nat) : Bool :=
  match stat? with
  | Option.none => false
  | some n => n ≤ maxSizeOf cfg

/-- Modelled from the spec (§4.1 glob syntax), for comparison with the
code's `matchesPattern`: `**` matches any sequence of characters across
separators, `*` matches a run of characters within one path segment,
`?` matches one character, and every other character (including `.`)
is literal. -/
def specGlobMatchAux : Nat → List Char → List Char → Bool
  | 0, _, _ => false
  | _ + 1, [], s => s.isEmpty
  | f + 1, '*' :: '*' :: p, s =>
    specGlobMatchAux f p s ||
      (match s with
       | [] => false
       | _ :: s' => specGlobMatchAux f ('*' :: '*' :: p) s')
  | f + 1, '*' :: p, s =>
    specGlobMatchAux f p s ||
      (match s with
       | [] => false
       | c :: s' => c ≠ '/' && specGlobMatchAux f ('*' :: p) s')
  | _ + 1, '?' :: _, [] => false
  | f + 1, '?' :: p, _ :: s => specGlobMatchAux f p s
  | _ + 1, _ :: _, [] => false
  | f + 1, c :: p, c' :: s => c = c' && specGlobMatchAux f p s

/-- Modelled from the spec (§4.1 glob syntax): glob matching with the
stated semantics (entry point for `specGlobMatchAux`, with fuel large
enough that it never runs out). -/
def specGlobMatch (p s : List Char) : Bool :=
  specGlobMatchAux (p.length + s.length + 1) p s

/-!
## Profile store (`ProfileManager`, `src/profileManager.ts`)
-/

/-- A saved selection profile. -/
structure Profile where
  name : String
  paths : List String
  createdAt : Nat
deriving DecidableEq

/-- JS `Array.findIndex` (first index satisfying the predicate). -/
def findIdxA {α : Type} (f : α → Bool) : List α → Option Nat
  | [] => Option.none
  | a :: r => if f a then some 0 else (findIdxA f r).map (· + 1)

/-- In-place update of the element at an index. -/
def updAt {α : Type} : Nat → (α → α) → List α → List α
  | _, _, [] => []
  | 0, f, a :: r => f a :: r
  | n + 1, f, a :: r => a :: updAt n f r

/-- `ProfileManager.renameProfile`: fail when the old name is missing or a
different profile already uses the new name; otherwise rename in place and
refresh the timestamp.  Returns the flag and the stored list afterward. -/
def renameProfile (now : Nat) (profiles : List Profile)
    (oldName newName : String) : Bool × List Profile :=
  match findIdxA (fun p => p.name = oldName) profiles with
  | Option.none => (false, profiles)
  | some i =>
    let nameExists := profiles.any (fun p => p.name = newName)
    if nameExists && !(newName == oldName) then (false, profiles)
    else
      (true, updAt i (fun p => { p with name := newName, createdAt := now }) profiles)

theorem findIdxA_none_of_not_exists {α : Type} (f : α → Bool) (l : List α)
    (h : ∀ a ∈ l, f a = false) : findIdxA f l = Option.none := by
  induction l with
  | nil => rfl
  | cons a r ih =>
    simp [findIdxA, h a (by simp), ih (fun x hx => h x (by simp [hx]))]

theorem findIdxA_isSome_of_exists {α : Type} (f : α → Bool) (l : List α)
    (h : ∃ a ∈ l, f a = true) : (findIdxA f l).isSome := by
  induction l with
  | nil => simp at h
  | cons a r ih =>
    by_cases hf : f a = true
    · simp [findIdxA, hf]
    · rcases h with ⟨x, hx, hfx⟩
      rcases List.mem_cons.mp hx with hx' | hx'
      · subst hx'; exact absurd hfx hf
      · have hr := ih ⟨x, hx', hfx⟩
        rcases ho : findIdxA f r with _ | j
        · rw [ho] at hr; simp at hr
        · simp [findIdxA, hf, ho]

theorem map_if_id (f : Profile → Profile) (o : String) (r : List Profile)
    (h : ∀ p ∈ r, ¬(p.name = o)) :
    r.map (fun p => if p.name = o then f p else p) = r := by
  induction r with
  | nil => rfl
  | cons a l ih =>
    simp [h a (by simp), ih (fun p hp => h p (by simp [hp]))]

theorem updAt_findIdxA_eq_map (f : Profile → Profile) (o : String)
    (ps : List Profile) (hnd : (ps.map Profile.name).Nodup) :
    ∀ j, findIdxA (fun p => p.name = o) ps = some j →
      updAt j f ps = ps.map (fun p => if p.name = o then f p else p) := by
  induction ps with
  | nil => intro j h; simp [findIdxA] at h
  | cons a r ih =>
    intro j h
    simp only [List.map_cons, List.nodup_cons] at hnd
    by_cases ha : a.name = o
    · simp only [findIdxA, ha] at h
      simp at h
      subst h
      have hrest : ∀ p ∈ r, ¬(p.name = o) := by
        intro p hp hc
        exact hnd.1 (by
          have : p.name ∈ List.map Profile.name r := List.mem_map_of_mem Profile.name hp
          rwa [hc, ← ha] at this)
      simp [updAt, ha, map_if_id f o r hrest]
    · rcases ho : findIdxA (fun p => decide (p.name = o)) r with _ | j'
      · simp [findIdxA, ha, ho] at h
      · simp [findIdxA, ha, ho] at h
        subst h
        simp [updAt, ha]
        exact ih hnd.2 j' ho

/-!
## Claim theorems: C3, C10
-/

/-- C3 (code_bug evidence): `matchesPattern` does not implement the stated
glob semantics.  The replacement chain corrupts its own earlier output
(the `.` produced by the `**` rule is escaped by the later `.`-escaping
step, the `*` produced by it is re-replaced, and the `/` inside the
`[^/]` classes is itself rewritten), so `node_modules/**` does not match
`node_modules/index.js`, the default pattern `*.log` does not match
`error.log`, and `a?` does not match `ab`; the spec-side glob matcher
accepts all three. -/
theorem c3_matchesPattern_violates_glob_spec :
    matchesPattern "node_modules/index.js" "node_modules/**" = false
    ∧ specGlobMatch ("node_modules/**".data) ("node_modules/index.js".data) = true
    ∧ matchesPattern "error.log" "*.log" = false
    ∧ specGlobMatch ("*.log".data) ("error.log".data) = true
    ∧ matchesPattern "ab" "a?" = false
    ∧ specGlobMatch ("a?".data) ("ab".data) = true := by
  refine ⟨?_, ?_, ?_, ?_, ?_, ?_⟩ <;> decide

/-- C10: `renameProfile` returns `false` and leaves the stored list
unchanged when no profile has the old name, or when a different profile
already has the new name; on success it returns `true` and renames the
matched profile in place, keeping its path list and resetting its
`createdAt` to the time of the rename. -/
theorem c10_renameProfile_contract (now : Nat) (ps : List Profile)
    (o n : String) :
    ((∀ p ∈ ps, ¬(p.name = o)) → renameProfile now ps o n = (false, ps))
    ∧ ((∃ p ∈ ps, p.name = n) → ¬(n = o) → renameProfile now ps o n = (false, ps))
    ∧ ((ps.map Profile.name).Nodup → (∃ p ∈ ps, p.name = o) →
        (n = o ∨ ∀ p ∈ ps, ¬(p.name = n)) →
        renameProfile now ps o n =
          (true, ps.map (fun p =>
            if p.name = o then { p with name := n, createdAt := now } else p))) := by
  refine ⟨?_, ?_, ?_⟩
  · intro h
    have hnone : findIdxA (fun p => p.name = o) ps = Option.none :=
      findIdxA_none_of_not_exists _ _ (by intro a ha; simp [h a ha])
    simp [renameProfile, hnone]
  · intro hex hne
    rcases hfind : findIdxA (fun p => p.name = o) ps with _ | i
    · simp [renameProfile, hfind]
    · have hany : ps.any (fun p => p.name = n) = true := by
        rcases hex with ⟨p, hp, hpn⟩
        exact List.any_eq_true.mpr ⟨p, hp, by simp [hpn]⟩
      simp [renameProfile, hfind, hany, hne]
  · intro hnd hex hfree
    have hsome : (findIdxA (fun p => p.name = o) ps).isSome :=
      findIdxA_isSome_of_exists _ _ (by
        rcases hex with ⟨p, hp, hpn⟩; exact ⟨p, hp, by simp [hpn]⟩)
    rcases hfind : findIdxA (fun p => p.name = o) ps with _ | i
    · rw [hfind] at hsome; simp at hsome
    · have hguard : (ps.any (fun p => p.name = n) && !(n == o)) = false := by
        rcases hfree with h | h
        · simp [h]
        · have hany : ps.any (fun p => p.name = n) = false := by
            simp only [List.any_eq_false]
            intro p hp; simp [h p hp]
          simp [hany]
      simp only [renameProfile, hfind, hguard, Bool.false_eq_true, if_false]
      rw [updAt_findIdxA_eq_map _ o ps hnd i hfind]

/-- C10 witness: renaming profile `a` to `c` in a two-profile store
succeeds, renames in place, keeps the path list and stamps `createdAt`. -/
theorem c10_renameProfile_contract_witness :
    renameProfile 5 [⟨"a", ["x"], 1⟩, ⟨"b", [], 2⟩] "a" "c" =
      (true, [⟨"c", ["x"], 5⟩, ⟨"b", [], 2⟩]) := by
  have h := (c10_renameProfile_contract 5 [⟨"a", ["x"], 1⟩, ⟨"b", [], 2⟩] "a" "c").2.2
    (by decide) (⟨⟨"a", ["x"], 1⟩, by decide⟩) (by right; intro p hp; fin_cases hp <;> decide)
  simpa using h


/-!
## Selection engine state (`FileTreeProvider` + `FileTreeCache`)
-/

/-- The tri-state directory verdict (`'none' | 'partial' | 'all'`). -/
inductive Verdict where
  | vnone
  | vpart
  | vall
deriving DecidableEq

/-- The mutable state of one `FileTreeProvider`: the selection store
(`checkedItems`), the two `FileTreeCache` maps (values paired with their
write timestamps), and a count of tree-data change events fired. -/
structure St where
  checked : List (Path × Bool)
  dirC : List (Path × (Verdict × Nat))
  fileC : List (Path × ((Bool × Bool) × Nat))
  events : Nat
deriving DecidableEq

/-- `FileTreeCache.cacheExpirationMs`. -/
def cacheExpirationMs : Nat := 60000

/-- `FileTreeCache.getDirectoryState`: an entry counts only while fresh. -/
def dget (now : Nat) (m : List (Path × (Verdict × Nat))) (k : Path) : Option Verdict :=
  match mget k m with
  | some (v, ts) => if now - ts < cacheExpirationMs then some v else Option.none
  | Option.none => Option.none

/-- `FileTreeCache.setDirectoryState`. -/
def setDirectoryState (now : Nat) (k : Path) (v : Verdict) (st : St) : St :=
  { st with dirC := mset k (v, now) st.dirC }

/-- `FileTreeCache.getFileValidation`: an entry counts only while fresh. -/
def fget (now : Nat) (m : List (Path × ((Bool × Bool) × Nat))) (k : Path) :
    Option (Bool × Bool) :=
  match mget k m with
  | some (vv, ts) => if now - ts < cacheExpirationMs then some vv else Option.none
  | Option.none => Option.none

/-- `FileTreeCache.setFileValidation`. -/
def setFileValidation (now : Nat) (k : Path) (ig sz : Bool) (st : St) : St :=
  { st with fileC := mset k ((ig, sz), now) st.fileC }

/-- `FileTreeCache.invalidateDirectory`: drop the directory's own entry
and every entry under it from both caches. -/
def invalidateDirectory (k : Path) (st : St) : St :=
  { st with
    dirC := st.dirC.filter (fun kv => !(pfx k kv.1))
    fileC := st.fileC.filter (fun kv => !(pfx k kv.1)) }

/-- Body of the `FileTreeCache.invalidateParentDirectories` loop: walk
from the node up, deleting each parent's directory-state entry until the
workspace root has been processed (fuel-bounded by the path length). -/
def invalidateParentsAux : Nat → Path → Path → List (Path × (Verdict × Nat)) →
    List (Path × (Verdict × Nat))
  | 0, _, _, m => m
  | f + 1, root, cur, m =>
    if cur = root then m
    else
      let parent := cur.dropLast
      if parent = cur then m
      else invalidateParentsAux f root parent (mdel parent m)

/-- `FileTreeCache.invalidateParentDirectories`. -/
def invalidateParentDirectories (root k : Path) (st : St) : St :=
  { st with dirC := invalidateParentsAux (k.length + 1) root k st.dirC }

/-- `FileTreeCache.clear`. -/
def cacheClear (st : St) : St := { st with dirC := [], fileC := [] }

/-!
## The file-system tree

Directory listings (`vscode.workspace.fs.readDirectory`) are modelled by a
finite tree; an entry is a name together with a file node (carrying its
stat result) or a directory node (carrying its own listing).
-/

mutual
/-- A file-system node: a file with its stat result (`Option` byte size,
`none` = stat fails), or a directory with its entries. -/
inductive FSNode where
  | file (stat? : Option Nat) : FSNode
  | dir (children : FSEntries) : FSNode

/-- A directory listing: `(name, node)` entries in `readDirectory` order. -/
inductive FSEntries where
  | nil : FSEntries
  | cons (name : String) (node : FSNode) (rest : FSEntries) : FSEntries
end

/-- Is the node a file (VS Code `FileType` other than `Directory`). -/
def isFileN : FSNode → Bool
  | .file _ => true
  | .dir _ => false

/-- The stat result of a node (meaningful for files). -/
def statOf : FSNode → Option Nat
  | .file s => s
  | .dir _ => Option.none

/-- The cached-or-computed validation step shared by
`getDirectorySelectionState` and by the file passes of
`updateChildrenCheckState` / `selectAllRecursive`: consult the validation
cache; on a miss compute `shouldIgnoreFile`, compute the size check only
for a non-ignored file, and store the result. -/
def valEntry (cfg : RepomixCfg) (R : Path) (now : Nat) (isFile : Bool)
    (stat? : Option Nat) (p : Path) (st : St) : (Bool × Bool) × St :=
  match fget now st.fileC p with
  | some vv => (vv, st)
  | Option.none =>
    let ig := shouldIgnoreFile cfg R p
    let sz := if !ig && isFile then isFileSizeValid cfg stat? else true
    ((ig, sz), setFileValidation now p ig sz st)

/-- The directory variant of the validation step used by the directory
passes of `updateChildrenCheckState` / `selectAllRecursive`: a cache hit
yields only the ignore flag; a miss caches `(ig, true)`. -/
def valDirEntry (cfg : RepomixCfg) (R : Path) (now : Nat) (p : Path)
    (st : St) : Bool × St :=
  match fget now st.fileC p with
  | some (ig, _) => (ig, st)
  | Option.none =>
    let ig := shouldIgnoreFile cfg R p
    (ig, setFileValidation now p ig true st)

/-- Aggregation loop of `getDirectorySelectionState` over the per-child
results `(isValid, isChecked, isPartial)`: any valid partial child forces
the partial verdict; otherwise count checked against total.  (The source
returns early on a partial child; the remaining children's results are
already computed and the early path writes the same cache entry, so this
linearisation is equivalent.) -/
def aggRes : List (Bool × Bool × Bool) → Nat → Nat → Verdict
  | [], ck, total => if ck = 0 then .vnone else if ck = total then .vall else .vpart
  | (valid, ckd, prt) :: rest, ck, total =>
    if valid then
      if prt then .vpart
      else aggRes rest (if ckd then ck + 1 else ck) (total + 1)
    else aggRes rest ck total

/-- The verdict computed from a result list (`checkedCount` and
`totalCount` both start at zero). -/
def aggregateResults (rs : List (Bool × Bool × Bool)) : Verdict := aggRes rs 0 0

/-- Per-child result computation of `getDirectorySelectionState`
(src/fileTree.ts:675-765), linearised left to right; the inlined
directory case is the recursive `getDirectorySelectionState` body
(cache lookup, recursive aggregation, cache write). -/
def gdsEntries (cfg : RepomixCfg) (R : Path) (now : Nat) :
    FSEntries → Path → St → (List (Bool × Bool × Bool) × St)
  | .nil, _, st => ([], st)
  | .cons n t rest, p, st =>
    let p₁ := p ++ [n]
    let vs := valEntry cfg R now (isFileN t) (statOf t) p₁ st
    let rs₀ :=
      if !vs.1.1 && vs.1.2 then
        match t with
        | .dir cs =>
          match dget now vs.2.dirC p₁ with
          | some v => ((true, v = .vall, v = .vpart), vs.2)
          | Option.none =>
            let gs := gdsEntries cfg R now cs p₁ vs.2
            let v := aggregateResults gs.1
            ((true, v = .vall, v = .vpart), setDirectoryState now p₁ v gs.2)
        | .file _ => ((true, (mget p₁ vs.2.checked).getD false, false), vs.2)
      else ((false, false, false), vs.2)
    let tl := gdsEntries cfg R now rest p rs₀.2
    (rs₀.1 :: tl.1, tl.2)

/-- `FileTreeProvider.getDirectorySelectionState`: cached verdict if
fresh, else aggregate the children and cache the verdict.  Calling it on
a file models the `readDirectory` failure path (caught, verdict none). -/
def getDirState (cfg : RepomixCfg) (R : Path) (now : Nat) (t : FSNode)
    (p : Path) (st : St) : Verdict × St :=
  match t with
  | .file _ => (.vnone, st)
  | .dir cs =>
    match dget now st.dirC p with
    | some v => (v, st)
    | Option.none =>
      let gs := gdsEntries cfg R now cs p st
      let v := aggregateResults gs.1
      (v, setDirectoryState now p v gs.2)

/-!
## Selection mutation operations (`FileTreeProvider`)
-/

/-- File pass of `updateChildrenCheckState` (src/fileTree.ts:226-259):
validate each non-directory entry and set every eligible one to the new
bit.  The source runs these in parallel and awaits them before the
directory pass; distinct children touch distinct keys, so this is the
left-to-right linearisation. -/
def updateChildrenFiles (cfg : RepomixCfg) (R : Path) (now : Nat) (ck : Bool) :
    FSEntries → Path → St → St
  | .nil, _, st => st
  | .cons n t rest, p, st =>
    match t with
    | .dir _ => updateChildrenFiles cfg R now ck rest p st
    | .file stat? =>
      let p₁ := p ++ [n]
      let vs := valEntry cfg R now true stat? p₁ st
      let st₁ :=
        if !vs.1.1 && vs.1.2 then { vs.2 with checked := mset p₁ ck vs.2.checked }
        else vs.2
      updateChildrenFiles cfg R now ck rest p st₁

/-- Entry steps of one `updateChildrenCheckState` call on a directory:
the visited-set check, the visited-size guard (`> 50`), the cache
invalidation and the file pass.  Returns the updated state and whether
the call proceeds to the directory pass. -/
def updateChildrenStep (cfg : RepomixCfg) (R : Path) (now : Nat) (ck : Bool)
    (cs : FSEntries) (p : Path) (s : St × List Path) : (St × List Path) × Bool :=
  if p ∈ s.2 then ((s.1, s.2), false)
  else
    let visited' := p :: s.2
    if visited'.length > 50 then ((s.1, visited'), false)
    else
      let st := invalidateDirectory p s.1
      let st := updateChildrenFiles cfg R now ck cs p st
      ((st, visited'), true)

/-- Directory pass of `updateChildrenCheckState` (src/fileTree.ts:262-289):
validate each directory entry, set the eligible ones and recurse
(sequentially, threading the visited set). -/
def updateChildrenDirs (cfg : RepomixCfg) (R : Path) (now : Nat) (ck : Bool) :
    FSEntries → Path → (St × List Path) → (St × List Path)
  | .nil, _, s => s
  | .cons n t rest, p, s =>
    match t with
    | .file _ => updateChildrenDirs cfg R now ck rest p s
    | .dir cs =>
      let p₁ := p ++ [n]
      let vs := valDirEntry cfg R now p₁ s.1
      let s' :=
        if vs.1 then (vs.2, s.2)
        else
          let st := { vs.2 with checked := mset p₁ ck vs.2.checked }
          let sg := updateChildrenStep cfg R now ck cs p₁ (st, s.2)
          if sg.2 then updateChildrenDirs cfg R now ck cs p₁ sg.1 else sg.1
      updateChildrenDirs cfg R now ck rest p s'

/-- `FileTreeProvider.updateChildrenCheckState` (src/fileTree.ts:180-293)
on the directory tree.  Calling it on a file models the caught
`readDirectory` failure (state unchanged). -/
def updateChildrenCheckState (cfg : RepomixCfg) (R : Path) (now : Nat)
    (ck : Bool) (t : FSNode) (p : Path) (s : St × List Path) : St × List Path :=
  match t with
  | .file _ => s
  | .dir cs =>
    let sg := updateChildrenStep cfg R now ck cs p s
    if sg.2 then updateChildrenDirs cfg R now ck cs p sg.1 else sg.1

/-- `FileTreeProvider.toggleChecked` (src/fileTree.ts:152-175): flip the
stored bit, invalidate the node's subtree cache and its ancestor chain,
propagate to children when the element is a directory, and fire a full
re-render. -/
def toggleChecked (cfg : RepomixCfg) (R : Path) (now : Nat) (t : FSNode)
    (p : Path) (st : St) : St :=
  let cur := (mget p st.checked).getD false
  let st := { st with checked := mset p (!cur) st.checked }
  let st := invalidateDirectory p st
  let st := invalidateParentDirectories R p st
  let st :=
    match t with
    | .dir _ => (updateChildrenCheckState cfg R now (!cur) t p (st, [])).1
    | .file _ => st
  { st with events := st.events + 1 }

/-- `FileTreeProvider.setChecked` (src/fileTree.ts:476-490): direct
non-recursive set of one identity's bit, with subtree + ancestor cache
invalidation, firing a re-render only when requested. -/
def setChecked (R : Path) (now : Nat) (p : Path) (ck fireEvent : Bool)
    (st : St) : St :=
  let st := { st with checked := mset p ck st.checked }
  let st := invalidateDirectory p st
  let st := invalidateParentDirectories R p st
  if fireEvent then { st with events := st.events + 1 } else st

/-- `FileTreeProvider.uncheckAll` (src/fileTree.ts:329-332): clear the
selection store and fire a re-render (`updateView()` without an element). -/
def uncheckAll (st : St) : St :=
  { st with checked := [], events := st.events + 1 }

/-- `FileTreeProvider.refresh` (src/fileTree.ts:81-93): clear the
selection store and both caches, then fire.  (The configuration reload it
also performs is an external call.) -/
def refresh (st : St) : St :=
  { st with checked := [], dirC := [], fileC := [], events := st.events + 1 }

/-- `FileTreeProvider.getCheckedItems`: the identities currently true in
the selection store, in insertion order. -/
def getCheckedItems (st : St) : List Path :=
  (st.checked.filter (fun kv => kv.2)).map (fun kv => kv.1)

/-!
## Search filter and filtered / full select-all
-/

/-- The characters escaped by `convertSearchQueryToRegex`
(`[.+?^${}()|[\]\\]` — everything except `*` and `/`). -/
def escSet : List Char :=
  ['.', '+', '?', '^', '$', '\x7b', '\x7d', '(', ')', '|', '[', ']', '\\']

/-- Escape the regex metacharacters of the query. -/
def escapeRegex : List Char → List Char
  | [] => []
  | c :: r => if escSet.contains c then '\\' :: c :: escapeRegex r else c :: escapeRegex r

/-- `FileTreeProvider.convertSearchQueryToRegex`: escape metacharacters,
turn `*` into `.*`, and compile case-insensitively (this query
sub-language always parses, so the `catch` branch never fires). -/
def compileSearch (q : String) : List RItem :=
  parseRegex (replaceAll ['*'] ['.', '*'] (escapeRegex q.data))

/-- `FileTreeProvider.matchesSearchQuery`: queries containing `/` match
the workspace-relative path, others the base name; the test is an
unanchored, case-insensitive search. -/
def matchesSearchQuery (R : Path) (q : String) (p : Path) : Bool :=
  let items := compileSearch q
  if q.data.contains '/' then rtest true items (relStr R p).data
  else rtest true items ((p.getLast?).getD "").data

/-- `FileTreeProvider.directoryHasMatchingFiles` unfolded over a listing:
skip ignored entries, return true on the first matching file, recurse
into subdirectories (short-circuiting). -/
def dhmEntries (cfg : RepomixCfg) (R : Path) (q : String) :
    FSEntries → Path → Bool
  | .nil, _ => false
  | .cons n t rest, p =>
    let p₁ := p ++ [n]
    if shouldIgnoreFile cfg R p₁ then dhmEntries cfg R q rest p
    else
      match t with
      | .file _ =>
        if matchesSearchQuery R q p₁ then true else dhmEntries cfg R q rest p
      | .dir cs =>
        if dhmEntries cfg R q cs p₁ then true else dhmEntries cfg R q rest p

/-- `FileTreeProvider.directoryHasMatchingFiles` (src/fileTree.ts:1313-1345).
On a file the `readDirectory` failure is caught and yields false. -/
def directoryHasMatchingFiles (cfg : RepomixCfg) (R : Path) (q : String)
    (t : FSNode) (p : Path) : Bool :=
  match t with
  | .file _ => false
  | .dir cs => dhmEntries cfg R q cs p

/-- Entry loop of `FileTreeProvider.selectFilteredItems`
(src/fileTree.ts:1263-1308): skip ignored entries; check a file when it
matches the query and passes the size check; check a directory when it
transitively contains a matching file, and recurse into it (the inlined
recursive call starts with its own visited-set check). -/
def sfiEntries (cfg : RepomixCfg) (R : Path) (q : String) :
    FSEntries → Path → (St × List Path) → (St × List Path)
  | .nil, _, s => s
  | .cons n t rest, p, s =>
    let p₁ := p ++ [n]
    let s' :=
      if shouldIgnoreFile cfg R p₁ then s
      else
        match t with
        | .file stat? =>
          if matchesSearchQuery R q p₁ then
            if isFileSizeValid cfg stat? then
              ({ s.1 with checked := mset p₁ true s.1.checked }, s.2)
            else s
          else s
        | .dir cs =>
          if directoryHasMatchingFiles cfg R q (.dir cs) p₁ then
            let st := { s.1 with checked := mset p₁ true s.1.checked }
            if p₁ ∈ s.2 then (st, s.2)
            else sfiEntries cfg R q cs p₁ (st, p₁ :: s.2)
          else s
    sfiEntries cfg R q rest p s'

/-- `FileTreeProvider.selectFilteredItems` on a directory node. -/
def selectFilteredItems (cfg : RepomixCfg) (R : Path) (q : String)
    (t : FSNode) (p : Path) (s : St × List Path) : St × List Path :=
  match t with
  | .file _ => s
  | .dir cs =>
    if p ∈ s.2 then s
    else sfiEntries cfg R q cs p (s.1, p :: s.2)

/-- File pass of `selectAllRecursive` (identical to the
`updateChildrenCheckState` file pass with the bit fixed to true). -/
def selectAllFiles (cfg : RepomixCfg) (R : Path) (now : Nat) :
    FSEntries → Path → St → St
  | .nil, _, st => st
  | .cons n t rest, p, st =>
    match t with
    | .dir _ => selectAllFiles cfg R now rest p st
    | .file stat? =>
      let p₁ := p ++ [n]
      let vs := valEntry cfg R now true stat? p₁ st
      let st₁ :=
        if !vs.1.1 && vs.1.2 then { vs.2 with checked := mset p₁ true vs.2.checked }
        else vs.2
      selectAllFiles cfg R now rest p st₁

/-- Entry steps of one `selectAllRecursive` call: the invalidation before
the `try` block, the visited-set check, the size guard, the second
invalidation and the file pass. -/
def selectAllStep (cfg : RepomixCfg) (R : Path) (now : Nat)
    (cs : FSEntries) (p : Path) (s : St × List Path) : (St × List Path) × Bool :=
  let st0 := invalidateDirectory p s.1
  if p ∈ s.2 then ((st0, s.2), false)
  else
    let visited' := p :: s.2
    if visited'.length > 50 then ((st0, visited'), false)
    else
      let st := invalidateDirectory p st0
      let st := selectAllFiles cfg R now cs p st
      ((st, visited'), true)

/-- Directory pass of `selectAllRecursive` (src/fileTree.ts:434-464):
set each eligible directory, invalidate its cache and recurse. -/
def selectAllDirs (cfg : RepomixCfg) (R : Path) (now : Nat) :
    FSEntries → Path → (St × List Path) → (St × List Path)
  | .nil, _, s => s
  | .cons n t rest, p, s =>
    match t with
    | .file _ => selectAllDirs cfg R now rest p s
    | .dir cs =>
      let p₁ := p ++ [n]
      let vs := valDirEntry cfg R now p₁ s.1
      let s' :=
        if vs.1 then (vs.2, s.2)
        else
          let st := { vs.2 with checked := mset p₁ true vs.2.checked }
          let st := invalidateDirectory p₁ st
          let sg := selectAllStep cfg R now cs p₁ (st, s.2)
          if sg.2 then selectAllDirs cfg R now cs p₁ sg.1 else sg.1
      selectAllDirs cfg R now rest p s'

/-- `FileTreeProvider.selectAllRecursive` (src/fileTree.ts:349-468).
On a file only the leading invalidation happens before the caught
`readDirectory` failure. -/
def selectAllRecursive (cfg : RepomixCfg) (R : Path) (now : Nat)
    (t : FSNode) (p : Path) (s : St × List Path) : St × List Path :=
  match t with
  | .file _ =>
    (invalidateDirectory p s.1, s.2)
  | .dir cs =>
    let sg := selectAllStep cfg R now cs p s
    if sg.2 then selectAllDirs cfg R now cs p sg.1 else sg.1

/-- `FileTreeProvider.selectAll` (src/fileTree.ts:1245-1258): with an
active query select only the filtered items, otherwise everything;
then fire a re-render. -/
def selectAll (cfg : RepomixCfg) (R : Path) (now : Nat) (q : String)
    (T : FSNode) (st : St) : St :=
  let st :=
    if q = "" then (selectAllRecursive cfg R now T R (st, [])).1
    else (selectFilteredItems cfg R q T R (st, [])).1
  { st with events := st.events + 1 }

/-!
## Tree lookup, well-formedness, and the spec-side verdict

`specDirVerdict` is written from the spec's words (§3 tri-state invariant,
§4.3 `getDirectorySelectionState`): the verdict of a directory is derived
only from its eligible children — any partial child directory forces
partial; all children checked (files by stored bit, directories by having
verdict all) and at least one child gives all; zero checked gives none;
zero eligible children gives none; a mix gives partial.
-/

/-- First entry with the given name (`readDirectory` names are unique on a
real file system; `wfE` states that). -/
def findEntry (n : String) : FSEntries → Option FSNode
  | .nil => Option.none
  | .cons n' t rest => if n' = n then some t else findEntry n rest

/-- The node reached from `t` by following relative path segments. -/
def findRel : FSNode → Path → Option FSNode
  | t, [] => some t
  | .dir cs, n :: q =>
    match findEntry n cs with
    | some t => findRel t q
    | Option.none => Option.none
  | .file _, _ :: _ => Option.none

/-- The entry names of a listing. -/
def namesOf : FSEntries → List String
  | .nil => []
  | .cons n _ rest => n :: namesOf rest

/-- Well-formedness of a listing: sibling names are distinct, recursively
(true of any real directory tree). -/
def wfE : FSEntries → Bool
  | .nil => true
  | .cons n t rest =>
    !((namesOf rest).contains n) &&
      (match t with
       | .file _ => true
       | .dir cs => wfE cs) &&
      wfE rest

/-- Well-formedness of a node. -/
def wfN : FSNode → Bool
  | .file _ => true
  | .dir cs => wfE cs

/-- Membership of a named entry in a listing. -/
def entryMem (n : String) (t : FSNode) : FSEntries → Prop
  | .nil => False
  | .cons n' t' rest => (n = n' ∧ t = t') ∨ entryMem n t rest

/-- The canonical validation verdict of a node at its path: the ignore
flag, and the size check for non-ignored files (`true` for directories
and ignored entries).  This is what every cache-miss branch computes. -/
def validOf (cfg : RepomixCfg) (R : Path) (p : Path) (t : FSNode) : Bool × Bool :=
  let ig := shouldIgnoreFile cfg R p
  (ig, if !ig && isFileN t then isFileSizeValid cfg (statOf t) else true)

/-- Eligibility (spec glossary): not ignored, and within the size limit
when a file. -/
def eligN (cfg : RepomixCfg) (R : Path) (p : Path) (t : FSNode) : Bool :=
  !(validOf cfg R p t).1 && (validOf cfg R p t).2

/-- Modelled from the spec: aggregation of the eligible children's
`(checked, partial)` contributions, in the claim's order of rules. -/
def specAgg (ks : List (Bool × Bool)) : Verdict :=
  if ks.any (fun k => k.2) then .vpart
  else if !ks.isEmpty && ks.all (fun k => k.1) then .vall
  else if ks.all (fun k => !k.1) then .vnone
  else .vpart

/-- Modelled from the spec: the `(checked, partial)` contribution of every
eligible child — a file contributes its stored bit, a subdirectory whether
its own (recursively derived) verdict is all / partial. -/
def specKids (cfg : RepomixCfg) (R : Path) (checked : List (Path × Bool)) :
    FSEntries → Path → List (Bool × Bool)
  | .nil, _ => []
  | .cons n t rest, p =>
    let p₁ := p ++ [n]
    if eligN cfg R p₁ t then
      (match t with
       | .file _ => ((mget p₁ checked).getD false, false)
       | .dir cs =>
         let v := specAgg (specKids cfg R checked cs p₁)
         (v = Verdict.vall, v = Verdict.vpart)) :: specKids cfg R checked rest p
    else specKids cfg R checked rest p

/-- Modelled from the spec: the derived tri-state verdict of a directory
(a file has no verdict; the engine's failure path reports none there). -/
def specDirVerdict (cfg : RepomixCfg) (R : Path) (checked : List (Path × Bool))
    (t : FSNode) (p : Path) : Verdict :=
  match t with
  | .file _ => .vnone
  | .dir cs => specAgg (specKids cfg R checked cs p)

/-- The per-child result list `getDirectorySelectionState` computes, in
spec terms: `(isValid, isChecked, isPartial)` per entry. -/
def specResults (cfg : RepomixCfg) (R : Path) (checked : List (Path × Bool)) :
    FSEntries → Path → List (Bool × Bool × Bool)
  | .nil, _ => []
  | .cons n t rest, p =>
    let p₁ := p ++ [n]
    (if eligN cfg R p₁ t then
      match t with
      | .file _ => (true, (mget p₁ checked).getD false, false)
      | .dir cs =>
        let v := specAgg (specKids cfg R checked cs p₁)
        (true, v = Verdict.vall, v = Verdict.vpart)
     else (false, false, false)) :: specResults cfg R checked rest p

/-- The valid entries of a result list, as `(checked, partial)` pairs. -/
def kidsOf (rs : List (Bool × Bool × Bool)) : List (Bool × Bool) :=
  rs.filterMap (fun r => if r.1 then some (r.2.1, r.2.2) else Option.none)

/-- The aggregation loop restricted to valid contributions. -/
def aggKids : List (Bool × Bool) → Nat → Nat → Verdict
  | [], ck, total => if ck = 0 then .vnone else if ck = total then .vall else .vpart
  | (ckd, prt) :: rest, ck, total =>
    if prt then .vpart
    else aggKids rest (if ckd then ck + 1 else ck) (total + 1)

/-- Nested induction principle for listings: the directory case provides
the hypothesis for the child listing as well as for the tail. -/
def fsEntriesRec (P : FSEntries → Prop) (hnil : P .nil)
    (hfile : ∀ n s rest, P rest → P (.cons n (.file s) rest))
    (hdir : ∀ n cs rest, P cs → P rest → P (.cons n (.dir cs) rest)) :
    ∀ es, P es
  | .nil => hnil
  | .cons n (.file s) rest => hfile n s rest (fsEntriesRec P hnil hfile hdir rest)
  | .cons n (.dir cs) rest =>
    hdir n cs rest (fsEntriesRec P hnil hfile hdir cs)
      (fsEntriesRec P hnil hfile hdir rest)

/-- Cache invariant: every fresh directory-verdict entry holds the
spec-derived verdict of the directory node at its key. -/
def DirOK (cfg : RepomixCfg) (R : Path) (now : Nat)
    (checked : List (Path × Bool)) (T : FSNode)
    (m : List (Path × (Verdict × Nat))) : Prop :=
  ∀ k v ts, (k, (v, ts)) ∈ m → now - ts < cacheExpirationMs →
    ∃ q t, k = R ++ q ∧ findRel T q = some t ∧ isFileN t = false ∧
      v = specDirVerdict cfg R checked t k

/-- Cache invariant: every fresh validation entry holds the canonical
validation verdict of the node at its key. -/
def FvOK (cfg : RepomixCfg) (R : Path) (now : Nat) (T : FSNode)
    (m : List (Path × ((Bool × Bool) × Nat))) : Prop :=
  ∀ k vv ts, (k, (vv, ts)) ∈ m → now - ts < cacheExpirationMs →
    ∃ q t, k = R ++ q ∧ findRel T q = some t ∧ vv = validOf cfg R k t

/-- Checked contributions among the kid pairs. -/
def cntT : List (Bool × Bool) → Nat
  | [] => 0
  | (ckd, _) :: r => (if ckd then 1 else 0) + cntT r

theorem cntT_le_length (ks : List (Bool × Bool)) : cntT ks ≤ ks.length := by
  induction ks with
  | nil => simp [cntT]
  | cons k r ih =>
    obtain ⟨ckd, prt⟩ := k
    by_cases h : ckd <;> simp [cntT, h] <;> omega

theorem all_not_iff_cntT_zero (ks : List (Bool × Bool)) :
    ks.all (fun k => !k.1) = true ↔ cntT ks = 0 := by
  induction ks with
  | nil => simp [cntT]
  | cons k r ih =>
    obtain ⟨ckd, prt⟩ := k
    by_cases h : ckd <;> simp [cntT, h, ih]

theorem all_iff_cntT_length (ks : List (Bool × Bool)) :
    ks.all (fun k => k.1) = true ↔ cntT ks = ks.length := by
  induction ks with
  | nil => simp [cntT]
  | cons k r ih =>
    obtain ⟨ckd, prt⟩ := k
    have := cntT_le_length r
    by_cases h : ckd <;> simp [cntT, h, ih] <;> omega

theorem aggRes_eq_aggKids (rs : List (Bool × Bool × Bool)) :
    ∀ ck total, aggRes rs ck total = aggKids (kidsOf rs) ck total := by
  induction rs with
  | nil => intro ck total; simp [aggRes, kidsOf, aggKids]
  | cons r rest ih =>
    intro ck total
    obtain ⟨valid, ckd, prt⟩ := r
    by_cases hv : valid <;> simp [aggRes, kidsOf, aggKids, hv, ih]

theorem aggKids_vpart (ks : List (Bool × Bool))
    (h : ks.any (fun k => k.2) = true) :
    ∀ ck total, aggKids ks ck total = .vpart := by
  induction ks with
  | nil => simp at h
  | cons k r ih =>
    intro ck total
    obtain ⟨ckd, prt⟩ := k
    cases prt with
    | true => simp [aggKids]
    | false =>
      simp only [List.any_cons] at h
      simp only [Bool.or_eq_true] at h
      rcases h with h | h
      · simp at h
      · simp [aggKids, ih h]

theorem aggKids_no_vpart (ks : List (Bool × Bool))
    (h : ks.all (fun k => !k.2) = true) :
    ∀ ck total, aggKids ks ck total =
      if ck + cntT ks = 0 then .vnone
      else if ck + cntT ks = total + ks.length then .vall
      else .vpart := by
  induction ks with
  | nil => intro ck total; simp [aggKids, cntT]
  | cons k r ih =>
    intro ck total
    obtain ⟨ckd, prt⟩ := k
    simp at h
    simp [aggKids, h.1, ih (by simpa using h.2), cntT]
    by_cases hc : ckd <;> simp [hc]
    · have h1 : ck + 1 + cntT r = ck + (1 + cntT r) := by omega
      have h2 : total + 1 + r.length = total + (r.length + 1) := by omega
      rw [h1, h2]
    · have h2 : total + 1 + r.length = total + (r.length + 1) := by omega
      rw [h2]

theorem aggKids_eq_specAgg (ks : List (Bool × Bool)) :
    aggKids ks 0 0 = specAgg ks := by
  cases hp : ks.any (fun k => k.2) with
  | true =>
    rw [aggKids_vpart ks hp]
    unfold specAgg
    rw [hp]
    simp
  | false =>
    have hnp : ks.all (fun k => !k.2) = true := by
      rw [List.all_eq_true]
      intro k hk
      cases h2 : k.2
      · simp
      · exact absurd (List.any_eq_true.mpr ⟨k, hk, h2⟩) (by simp [hp])
    rw [aggKids_no_vpart ks hnp]
    unfold specAgg
    rw [hp]
    simp only [Nat.zero_add, Bool.false_eq_true, if_false]
    by_cases hz : cntT ks = 0
    · rw [if_pos hz]
      have hall : ks.all (fun k => !k.1) = true := (all_not_iff_cntT_zero ks).mpr hz
      have hsecond : (!ks.isEmpty && ks.all (fun k => k.1)) = false := by
        cases ks with
        | nil => simp
        | cons a r =>
          cases hfst : (a :: r).all (fun k => k.1)
          · simp [hfst]
          · exfalso
            have hlen := (all_iff_cntT_length (a :: r)).mp hfst
            rw [hz] at hlen
            simp at hlen
      rw [hsecond]
      simp [hall]
    · rw [if_neg hz]
      by_cases he : cntT ks = ks.length
      · rw [if_pos he]
        have hall := (all_iff_cntT_length ks).mpr he
        have hne : ks.isEmpty = false := by
          cases ks with
          | nil => simp [cntT] at hz
          | cons a r => simp
        simp [hall, hne]
      · rw [if_neg he]
        have h1 : (!ks.isEmpty && ks.all (fun k => k.1)) = false := by
          cases hfst : ks.all (fun k => k.1)
          · simp
          · exact absurd ((all_iff_cntT_length ks).mp hfst) he
        have h2 : ks.all (fun k => !k.1) = false := by
          cases hfst : ks.all (fun k => !k.1)
          · rfl
          · exact absurd ((all_not_iff_cntT_zero ks).mp hfst) hz
        rw [h1, h2]
        simp

theorem aggregate_eq_specAgg (rs : List (Bool × Bool × Bool)) :
    aggregateResults rs = specAgg (kidsOf rs) := by
  unfold aggregateResults
  rw [aggRes_eq_aggKids]
  exact aggKids_eq_specAgg _

theorem kidsOf_specResults (cfg : RepomixCfg) (R : Path)
    (checked : List (Path × Bool)) (cs : FSEntries) (p : Path) :
    kidsOf (specResults cfg R checked cs p) = specKids cfg R checked cs p := by
  induction cs using fsEntriesRec with
  | hnil => simp [specResults, specKids, kidsOf]
  | hfile n s rest ih =>
    by_cases h : eligN cfg R (p ++ [n]) (.file s) = true <;>
      simp [specResults, specKids, kidsOf, h, ← ih]
  | hdir n cs₁ rest ih₁ ih =>
    by_cases h : eligN cfg R (p ++ [n]) (.dir cs₁) = true <;>
      simp [specResults, specKids, kidsOf, h, ← ih]

theorem entryMem_name_mem (n : String) (t : FSNode) (cs : FSEntries)
    (h : entryMem n t cs) : n ∈ namesOf cs := by
  induction cs using fsEntriesRec with
  | hnil => simp [entryMem] at h
  | hfile n' s rest ih =>
    rcases h with ⟨h1, _⟩ | h
    · simp [namesOf, h1]
    · simp [namesOf, ih h]
  | hdir n' cs₁ rest ih₁ ih =>
    rcases h with ⟨h1, _⟩ | h
    · simp [namesOf, h1]
    · simp [namesOf, ih h]

theorem wfE_cons (n : String) (t : FSNode) (rest : FSEntries)
    (h : wfE (.cons n t rest) = true) :
    ((namesOf rest).contains n) = false ∧ wfN t = true ∧ wfE rest = true := by
  unfold wfE at h
  simp only [Bool.and_eq_true, Bool.not_eq_true'] at h
  obtain ⟨⟨h1, h2⟩, h3⟩ := h
  refine ⟨h1, ?_, h3⟩
  cases t with
  | file s => rfl
  | dir cs => exact h2

theorem wfE_entryMem_findEntry (n : String) (t : FSNode) (cs : FSEntries)
    (hwf : wfE cs = true) (h : entryMem n t cs) : findEntry n cs = some t := by
  induction cs using fsEntriesRec with
  | hnil => simp [entryMem] at h
  | hfile n' s rest ih =>
    obtain ⟨hc, _, hr⟩ := wfE_cons n' _ rest hwf
    rcases h with ⟨h1, h2⟩ | h
    · simp [findEntry, h1.symm, h2]
    · have hne : ¬(n' = n) := by
        intro hcn
        subst hcn
        have hm := entryMem_name_mem n' t rest h
        simp at hc
        exact hc hm
      simp [findEntry, hne, ih hr h]
  | hdir n' cs₁ rest ih₁ ih =>
    obtain ⟨hc, _, hr⟩ := wfE_cons n' _ rest hwf
    rcases h with ⟨h1, h2⟩ | h
    · simp [findEntry, h1.symm, h2]
    · have hne : ¬(n' = n) := by
        intro hcn
        subst hcn
        have hm := entryMem_name_mem n' t rest h
        simp at hc
        exact hc hm
      simp [findEntry, hne, ih hr h]

theorem wfE_findEntry (n : String) (t : FSNode) (cs : FSEntries)
    (hwf : wfE cs = true) (h : findEntry n cs = some t) : wfN t = true := by
  induction cs using fsEntriesRec with
  | hnil => simp [findEntry] at h
  | hfile n' s rest ih =>
    obtain ⟨_, hn', hr⟩ := wfE_cons n' _ rest hwf
    by_cases hn : n' = n
    · simp [findEntry, hn] at h
      subst h; rfl
    · simp [findEntry, hn] at h
      exact ih hr h
  | hdir n' cs₁ rest ih₁ ih =>
    obtain ⟨_, hn', hr⟩ := wfE_cons n' _ rest hwf
    by_cases hn : n' = n
    · simp [findEntry, hn] at h
      subst h
      exact hn'
    · simp [findEntry, hn] at h
      exact ih hr h

theorem findRel_snoc (T : FSNode) (q : Path) (cs : FSEntries) (n : String)
    (t : FSNode) (hq : findRel T q = some (.dir cs))
    (he : findEntry n cs = some t) : findRel T (q ++ [n]) = some t := by
  induction q generalizing T with
  | nil =>
    simp [findRel] at hq
    subst hq
    simp [findRel, he]
  | cons m q' ih =>
    cases T with
    | file s => simp [findRel] at hq
    | dir cs0 =>
      simp only [findRel] at hq ⊢
      rcases hf : findEntry m cs0 with _ | t'
      · rw [hf] at hq; simp at hq
      · rw [hf] at hq
        exact ih t' hq

theorem wf_findRel (T : FSNode) (q : Path) (t : FSNode)
    (hwf : wfN T = true) (h : findRel T q = some t) : wfN t = true := by
  induction q generalizing T with
  | nil => simp [findRel] at h; subst h; exact hwf
  | cons m q' ih =>
    cases T with
    | file s => simp [findRel] at h
    | dir cs =>
      simp only [findRel] at h
      rcases hf : findEntry m cs with _ | t'
      · rw [hf] at h; simp at h
      · rw [hf] at h
        exact ih t' (wfE_findEntry m t' cs hwf hf) h

theorem fget_some (now : Nat) (m : List (Path × ((Bool × Bool) × Nat)))
    (k : Path) (vv : Bool × Bool) (h : fget now m k = some vv) :
    ∃ ts, (k, (vv, ts)) ∈ m ∧ now - ts < cacheExpirationMs := by
  unfold fget at h
  rcases hm : mget k m with _ | p
  · rw [hm] at h; simp at h
  · obtain ⟨vv', ts⟩ := p
    rw [hm] at h
    by_cases hf : now - ts < cacheExpirationMs
    · simp [hf] at h
      subst h
      exact ⟨ts, mget_mem _ _ _ hm, hf⟩
    · simp [hf] at h

theorem dget_some (now : Nat) (m : List (Path × (Verdict × Nat)))
    (k : Path) (v : Verdict) (h : dget now m k = some v) :
    ∃ ts, (k, (v, ts)) ∈ m ∧ now - ts < cacheExpirationMs := by
  unfold dget at h
  rcases hm : mget k m with _ | p
  · rw [hm] at h; simp at h
  · obtain ⟨v', ts⟩ := p
    rw [hm] at h
    by_cases hf : now - ts < cacheExpirationMs
    · simp [hf] at h
      subst h
      exact ⟨ts, mget_mem _ _ _ hm, hf⟩
    · simp [hf] at h

theorem app_cancel {α : Type} (R a b : List α) (h : R ++ a = R ++ b) : a = b := by
  induction R with
  | nil => simpa using h
  | cons x r ih =>
    simp only [List.cons_append, List.cons.injEq] at h
    exact ih h.2

theorem valEntry_spec (cfg : RepomixCfg) (R : Path) (now : Nat) (T : FSNode)
    (q : Path) (t : FSNode) (st : St)
    (hfv : FvOK cfg R now T st.fileC) (hfind : findRel T q = some t) :
    (valEntry cfg R now (isFileN t) (statOf t) (R ++ q) st).1 = validOf cfg R (R ++ q) t
    ∧ (valEntry cfg R now (isFileN t) (statOf t) (R ++ q) st).2.checked = st.checked
    ∧ (valEntry cfg R now (isFileN t) (statOf t) (R ++ q) st).2.dirC = st.dirC
    ∧ (valEntry cfg R now (isFileN t) (statOf t) (R ++ q) st).2.events = st.events
    ∧ FvOK cfg R now T (valEntry cfg R now (isFileN t) (statOf t) (R ++ q) st).2.fileC := by
  unfold valEntry
  rcases hv : fget now st.fileC (R ++ q) with _ | vv
  · refine ⟨rfl, rfl, rfl, rfl, ?_⟩
    intro k vv' ts hmem hfresh
    simp only [setFileValidation] at hmem
    rcases mem_mset _ _ _ _ hmem with he | he
    · simp only [Prod.mk.injEq] at he
      obtain ⟨hk, hvv', _⟩ := he
      subst hk
      exact ⟨q, t, rfl, hfind, by simp [validOf, hvv']⟩
    · exact hfv _ _ _ he hfresh
  · obtain ⟨ts, hmem, hfresh⟩ := fget_some now st.fileC (R ++ q) vv hv
    obtain ⟨q', t', hk, hfind', hvv⟩ := hfv _ _ _ hmem hfresh
    have hq : q = q' := app_cancel R q q' hk
    subst hq
    have ht : t' = t := by
      rw [hfind] at hfind'
      injection hfind' with h
      exact h.symm
    subst ht
    exact ⟨hvv.symm ▸ rfl, rfl, rfl, rfl, hfv⟩

theorem valDirEntry_spec (cfg : RepomixCfg) (R : Path) (now : Nat) (T : FSNode)
    (q : Path) (cs : FSEntries) (st : St)
    (hfv : FvOK cfg R now T st.fileC) (hfind : findRel T q = some (.dir cs)) :
    (valDirEntry cfg R now (R ++ q) st).1 = shouldIgnoreFile cfg R (R ++ q)
    ∧ (valDirEntry cfg R now (R ++ q) st).2.checked = st.checked
    ∧ (valDirEntry cfg R now (R ++ q) st).2.dirC = st.dirC
    ∧ (valDirEntry cfg R now (R ++ q) st).2.events = st.events
    ∧ FvOK cfg R now T (valDirEntry cfg R now (R ++ q) st).2.fileC := by
  unfold valDirEntry
  rcases hv : fget now st.fileC (R ++ q) with _ | vv
  · refine ⟨rfl, rfl, rfl, rfl, ?_⟩
    intro k vv' ts hmem hfresh
    simp only [setFileValidation] at hmem
    rcases mem_mset _ _ _ _ hmem with he | he
    · simp only [Prod.mk.injEq] at he
      obtain ⟨hk, hvv', _⟩ := he
      subst hk
      refine ⟨q, .dir cs, rfl, hfind, ?_⟩
      simp [validOf, hvv', isFileN]
    · exact hfv _ _ _ he hfresh
  · obtain ⟨ts, hmem, hfresh⟩ := fget_some now st.fileC (R ++ q) vv hv
    obtain ⟨q', t', hk, hfind', hvv⟩ := hfv _ _ _ hmem hfresh
    have hq : q = q' := app_cancel R q q' hk
    subst hq
    have ht : t' = FSNode.dir cs := by
      rw [hfind] at hfind'
      injection hfind' with h
      exact h.symm
    subst ht
    obtain ⟨ig, sz⟩ := vv
    refine ⟨?_, rfl, rfl, rfl, hfv⟩
    have : (ig, sz) = validOf cfg R (R ++ q) (.dir cs) := hvv
    simp [validOf] at this
    simp [this.1]

theorem gdsEntries_spec (cfg : RepomixCfg) (R : Path) (now : Nat) (T : FSNode)
    (hwf : wfN T = true) :
    ∀ es : FSEntries, ∀ (q : Path) (cs0 : FSEntries) (st : St),
      findRel T q = some (.dir cs0) →
      (∀ n t, entryMem n t es → findEntry n cs0 = some t) →
      FvOK cfg R now T st.fileC →
      DirOK cfg R now st.checked T st.dirC →
      (gdsEntries cfg R now es (R ++ q) st).1 = specResults cfg R st.checked es (R ++ q)
      ∧ (gdsEntries cfg R now es (R ++ q) st).2.checked = st.checked
      ∧ (gdsEntries cfg R now es (R ++ q) st).2.events = st.events
      ∧ FvOK cfg R now T (gdsEntries cfg R now es (R ++ q) st).2.fileC
      ∧ DirOK cfg R now st.checked T (gdsEntries cfg R now es (R ++ q) st).2.dirC := by
  intro es
  induction es using fsEntriesRec with
  | hnil =>
    intro q cs0 st hq hsub hfv hdo
    exact ⟨rfl, rfl, rfl, hfv, hdo⟩
  | hfile n s rest ih =>
    intro q cs0 st hq hsub hfv hdo
    have hfe : findEntry n cs0 = some (.file s) := hsub n _ (Or.inl ⟨rfl, rfl⟩)
    have hfind₁ : findRel T (q ++ [n]) = some (.file s) :=
      findRel_snoc T q cs0 n _ hq hfe
    rcases hE : valEntry cfg R now (isFileN (.file s)) (statOf (.file s))
        (R ++ q ++ [n]) st with ⟨vv, st₁⟩
    have hspec := valEntry_spec cfg R now T (q ++ [n]) (.file s) st hfv hfind₁
    rw [← List.append_assoc] at hspec
    rw [hE] at hspec
    dsimp only at hspec
    obtain ⟨hvv, hck1, hdc1, hev1, hfv1⟩ := hspec
    have hdo₁ : DirOK cfg R now st.checked T st₁.dirC := hdc1 ▸ hdo
    have hdo₁' : DirOK cfg R now st₁.checked T st₁.dirC := hck1 ▸ hdo₁
    have ihr := ih q cs0 st₁ hq (fun n' t' hm => hsub n' t' (Or.inr hm)) hfv1 hdo₁'
    rcases hR : gdsEntries cfg R now rest (R ++ q) st₁ with ⟨rs, st₂⟩
    rw [hR] at ihr
    dsimp only at ihr
    obtain ⟨hrs, hck2, hev2, hfv2, hdo2⟩ := ihr
    have hcond : (!vv.1 && vv.2) = eligN cfg R (R ++ q ++ [n]) (.file s) := by
      rw [hvv]; rfl
    have hgds : gdsEntries cfg R now (.cons n (.file s) rest) (R ++ q) st =
        ((if eligN cfg R (R ++ q ++ [n]) (.file s) then
            (true, (mget (R ++ q ++ [n]) st.checked).getD false, false)
          else (false, false, false)) :: rs, st₂) := by
      simp only [gdsEntries]
      rw [hE]
      simp only [hcond]
      by_cases he : eligN cfg R (R ++ q ++ [n]) (.file s) = true
      · simp only [he, if_true, hck1]
        rw [hR]
      · simp only [he, if_false, Bool.false_eq_true]
        rw [hR]
    rw [hgds]
    refine ⟨?_, by simpa using hck2.trans hck1, by simpa using hev2.trans hev1,
      by simpa using hfv2, ?_⟩
    · simp only [specResults, hrs, hck1]
    · simp only []
      rw [hck1] at hdo2
      exact hdo2
  | hdir n cs₁ rest ih₁ ih =>
    intro q cs0 st hq hsub hfv hdo
    have hfe : findEntry n cs0 = some (.dir cs₁) := hsub n _ (Or.inl ⟨rfl, rfl⟩)
    have hfind₁ : findRel T (q ++ [n]) = some (.dir cs₁) :=
      findRel_snoc T q cs0 n _ hq hfe
    rcases hE : valEntry cfg R now (isFileN (.dir cs₁)) (statOf (.dir cs₁))
        (R ++ q ++ [n]) st with ⟨vv, st₁⟩
    have hspec := valEntry_spec cfg R now T (q ++ [n]) (.dir cs₁) st hfv hfind₁
    rw [← List.append_assoc] at hspec
    rw [hE] at hspec
    dsimp only at hspec
    obtain ⟨hvv, hck1, hdc1, hev1, hfv1⟩ := hspec
    have hdo₁ : DirOK cfg R now st.checked T st₁.dirC := hdc1 ▸ hdo
    have hcond : (!vv.1 && vv.2) = eligN cfg R (R ++ q ++ [n]) (.dir cs₁) := by
      rw [hvv]; rfl
    have hv0 : specAgg (specKids cfg R st.checked cs₁ (R ++ q ++ [n])) =
        specDirVerdict cfg R st.checked (.dir cs₁) (R ++ q ++ [n]) := rfl
    by_cases helig : eligN cfg R (R ++ q ++ [n]) (.dir cs₁) = true
    · -- eligible subdirectory: recurse or use the cache
      rcases hd : dget now st₁.dirC (R ++ q ++ [n]) with _ | v
      · -- cache miss: the nested call
        have hwfsub : wfE cs₁ = true := by
          have := wf_findRel T (q ++ [n]) (.dir cs₁) hwf hfind₁
          simpa [wfN] using this
        have hdo₁' : DirOK cfg R now st₁.checked T st₁.dirC := hck1 ▸ hdo₁
        have ihsub := ih₁ (q ++ [n]) cs₁ st₁ hfind₁
          (fun n' t' hm => wfE_entryMem_findEntry n' t' cs₁ hwfsub hm) hfv1 hdo₁'
        rw [← List.append_assoc] at ihsub
        rcases hS : gdsEntries cfg R now cs₁ (R ++ q ++ [n]) st₁ with ⟨rs₁, st₂⟩
        rw [hS] at ihsub
        dsimp only at ihsub
        obtain ⟨hrs₁, hck2, hev2, hfv2, hdo2⟩ := ihsub
        have hval : aggregateResults rs₁ =
            specAgg (specKids cfg R st.checked cs₁ (R ++ q ++ [n])) := by
          rw [hrs₁, hck1, aggregate_eq_specAgg, kidsOf_specResults]
        set v := aggregateResults rs₁ with hvdef
        have hst₃ck : (setDirectoryState now (R ++ q ++ [n]) v st₂).checked = st.checked := by
          simp [setDirectoryState, hck2, hck1]
        have hst₃ev : (setDirectoryState now (R ++ q ++ [n]) v st₂).events = st.events := by
          simp [setDirectoryState, hev2, hev1]
        have hst₃fv : FvOK cfg R now T (setDirectoryState now (R ++ q ++ [n]) v st₂).fileC := by
          simpa [setDirectoryState] using hfv2
        have hdo₂' : DirOK cfg R now st.checked T st₂.dirC := by
          rw [hck1] at hdo2; exact hdo2
        have hst₃do : DirOK cfg R now st.checked T
            (setDirectoryState now (R ++ q ++ [n]) v st₂).dirC := by
          intro k v' ts hmem hfresh
          simp only [setDirectoryState] at hmem
          rcases mem_mset _ _ _ _ hmem with he | he
          · simp only [Prod.mk.injEq] at he
            obtain ⟨hk, hvv', _⟩ := he
            subst hk
            refine ⟨q ++ [n], .dir cs₁, by rw [List.append_assoc], hfind₁, rfl, ?_⟩
            rw [hvv', hval, hv0]
          · exact hdo₂' _ _ _ he hfresh
        have hdoX : DirOK cfg R now
            (setDirectoryState now (R ++ q ++ [n]) v st₂).checked T
            (setDirectoryState now (R ++ q ++ [n]) v st₂).dirC := by
          rw [hst₃ck]; exact hst₃do
        have ihr := ih q cs0 (setDirectoryState now (R ++ q ++ [n]) v st₂) hq
          (fun n' t' hm => hsub n' t' (Or.inr hm)) hst₃fv hdoX
        rcases hR : gdsEntries cfg R now rest (R ++ q)
            (setDirectoryState now (R ++ q ++ [n]) v st₂) with ⟨rs, st₄⟩
        rw [hR] at ihr
        dsimp only at ihr
        obtain ⟨hrs, hck4, hev4, hfv4, hdo4⟩ := ihr
        have hgds : gdsEntries cfg R now (.cons n (.dir cs₁) rest) (R ++ q) st =
            ((true, decide (v = Verdict.vall), decide (v = Verdict.vpart)) :: rs, st₄) := by
          simp only [gdsEntries]
          rw [hE]
          dsimp only
          simp only [hcond, helig, if_true]
          rw [hd]
          dsimp only
          rw [hS]
          dsimp only
          rw [← hvdef, hR]
        rw [hgds]
        have hrs' : rs = specResults cfg R st.checked rest (R ++ q) := by
          rw [hrs, hst₃ck]
        refine ⟨?_, by simpa using hck4.trans hst₃ck, by simpa using hev4.trans hst₃ev,
          by simpa using hfv4, ?_⟩
        · simp only [specResults, helig, if_true, hrs', hval]
        · rw [hst₃ck] at hdo4
          simpa using hdo4
      · -- cache hit: the invariant equates the cached verdict with the spec
        obtain ⟨ts, hmem, hfresh⟩ := dget_some now st₁.dirC (R ++ q ++ [n]) v hd
        obtain ⟨q', t', hk, hfind', hnf, hv⟩ := hdo₁ _ _ _ hmem hfresh
        have hq' : q ++ [n] = q' := by
          apply app_cancel R
          rw [← List.append_assoc]
          exact hk
        subst hq'
        have ht' : t' = FSNode.dir cs₁ := by
          rw [hfind₁] at hfind'
          injection hfind' with h
          exact h.symm
        subst ht'
        have ihr := ih q cs0 st₁ hq (fun n' t' hm => hsub n' t' (Or.inr hm)) hfv1
          (hck1 ▸ hdo₁)
        rcases hR : gdsEntries cfg R now rest (R ++ q) st₁ with ⟨rs, st₂⟩
        rw [hR] at ihr
        dsimp only at ihr
        obtain ⟨hrs, hck2, hev2, hfv2, hdo2⟩ := ihr
        have hgds : gdsEntries cfg R now (.cons n (.dir cs₁) rest) (R ++ q) st =
            ((true, decide (v = Verdict.vall), decide (v = Verdict.vpart)) :: rs, st₂) := by
          simp only [gdsEntries]
          rw [hE]
          dsimp only
          simp only [hcond, helig, if_true]
          rw [hd]
          dsimp only
          rw [hR]
        rw [hgds]
        have hrs' : rs = specResults cfg R st.checked rest (R ++ q) := by
          rw [hrs, hck1]
        refine ⟨?_, by simpa using hck2.trans hck1, by simpa using hev2.trans hev1,
          by simpa using hfv2, ?_⟩
        · simp only [specResults, helig, if_true, hrs']
          rw [hv, ← hv0]
        · rw [hck1] at hdo2
          simpa using hdo2
    · -- ineligible entry: no recursion, result is the invalid triple
      have ihr := ih q cs0 st₁ hq (fun n' t' hm => hsub n' t' (Or.inr hm)) hfv1
        (hck1 ▸ hdo₁)
      rcases hR : gdsEntries cfg R now rest (R ++ q) st₁ with ⟨rs, st₂⟩
      rw [hR] at ihr
      dsimp only at ihr
      obtain ⟨hrs, hck2, hev2, hfv2, hdo2⟩ := ihr
      have hgds : gdsEntries cfg R now (.cons n (.dir cs₁) rest) (R ++ q) st =
          ((false, false, false) :: rs, st₂) := by
        simp only [gdsEntries]
        rw [hE]
        dsimp only
        simp only [hcond, helig, if_false, Bool.false_eq_true]
        rw [hR]
      rw [hgds]
      have hrs' : rs = specResults cfg R st.checked rest (R ++ q) := by
        rw [hrs, hck1]
      refine ⟨?_, by simpa using hck2.trans hck1, by simpa using hev2.trans hev1,
        by simpa using hfv2, ?_⟩
      · simp only [specResults, helig, if_false, hrs', Bool.false_eq_true]
      · rw [hck1] at hdo2
        simpa using hdo2

theorem getDirState_spec (cfg : RepomixCfg) (R : Path) (now : Nat) (T : FSNode)
    (q : Path) (t : FSNode) (st : St)
    (hwf : wfN T = true) (hfind : findRel T q = some t)
    (hfv : FvOK cfg R now T st.fileC)
    (hdo : DirOK cfg R now st.checked T st.dirC) :
    (getDirState cfg R now t (R ++ q) st).1 = specDirVerdict cfg R st.checked t (R ++ q)
    ∧ (getDirState cfg R now t (R ++ q) st).2.checked = st.checked
    ∧ FvOK cfg R now T (getDirState cfg R now t (R ++ q) st).2.fileC
    ∧ DirOK cfg R now st.checked T (getDirState cfg R now t (R ++ q) st).2.dirC := by
  cases t with
  | file s => exact ⟨rfl, rfl, hfv, hdo⟩
  | dir cs =>
    rcases hd : dget now st.dirC (R ++ q) with _ | v
    · have hwfsub : wfE cs = true := by
        simpa [wfN] using wf_findRel T q _ hwf hfind
      have hgds := gdsEntries_spec cfg R now T hwf cs q cs st hfind
        (fun n' t' hm => wfE_entryMem_findEntry n' t' cs hwfsub hm) hfv hdo
      rcases hS : gdsEntries cfg R now cs (R ++ q) st with ⟨rs, st₂⟩
      rw [hS] at hgds
      dsimp only at hgds
      obtain ⟨hrs, hck2, hev2, hfv2, hdo2⟩ := hgds
      have hval : aggregateResults rs =
          specDirVerdict cfg R st.checked (.dir cs) (R ++ q) := by
        rw [hrs, aggregate_eq_specAgg, kidsOf_specResults]
        rfl
      have hunfold : getDirState cfg R now (.dir cs) (R ++ q) st =
          (aggregateResults rs, setDirectoryState now (R ++ q) (aggregateResults rs) st₂) := by
        simp only [getDirState]
        rw [hd]
        dsimp only
        rw [hS]
      rw [hunfold]
      refine ⟨hval, by simp [setDirectoryState, hck2],
        by simpa [setDirectoryState] using hfv2, ?_⟩
      intro k v' ts hmem hfresh
      simp only [setDirectoryState] at hmem
      rcases mem_mset _ _ _ _ hmem with he | he
      · simp only [Prod.mk.injEq] at he
        obtain ⟨hk, hv', _⟩ := he
        subst hk
        exact ⟨q, .dir cs, rfl, hfind, rfl, by rw [hv', hval]⟩
      · exact hdo2 _ _ _ he hfresh
    · obtain ⟨ts, hmem, hfresh⟩ := dget_some now st.dirC (R ++ q) v hd
      obtain ⟨q', t', hk, hfind', hnf, hv⟩ := hdo _ _ _ hmem hfresh
      have hq' : q = q' := app_cancel R q q' hk
      subst hq'
      have ht' : t' = FSNode.dir cs := by
        rw [hfind] at hfind'
        injection hfind' with h
        exact h.symm
      subst ht'
      have hu : getDirState cfg R now (.dir cs) (R ++ q) st = (v, st) := by
        simp only [getDirState]
        rw [hd]
      rw [hu]
      exact ⟨hv, rfl, hfv, hdo⟩

/-!
## Claim theorems: C5, C9
-/

/-- C5 counterexample: `uncheckAll()` leaves both caches untouched, so a
state with a cached directory verdict and a cached file validation keeps
them after `uncheckAll`, contradicting the claim that both caches are
cleared. -/
theorem c5_uncheckAll_keeps_caches_counterexample :
    (uncheckAll ⟨[(["w", "a"], true)],
        [(["w"], (Verdict.vall, 0))],
        [(["w", "a"], ((false, true), 0))], 0⟩).dirC
        = [(["w"], (Verdict.vall, 0))]
    ∧ (uncheckAll ⟨[(["w", "a"], true)],
        [(["w"], (Verdict.vall, 0))],
        [(["w", "a"], ((false, true), 0))], 0⟩).fileC
        = [(["w", "a"], ((false, true), 0))]
    ∧ (uncheckAll ⟨[(["w", "a"], true)],
        [(["w"], (Verdict.vall, 0))],
        [(["w", "a"], ((false, true), 0))], 0⟩).checked = [] := by
  refine ⟨rfl, rfl, rfl⟩

/-- C5 amended: `uncheckAll()` clears the entire selection store and
fires a re-render but leaves both caches untouched; it is `refresh()`
that clears the store and both caches. -/
theorem c5_uncheckAll_clears_store_only (st : St) :
    uncheckAll st = { st with checked := [], events := st.events + 1 }
    ∧ refresh st =
        { st with checked := [], dirC := [], fileC := [], events := st.events + 1 } :=
  ⟨rfl, rfl⟩

/-- C9: toggling a leaf file twice returns its stored checked bit (absent
entries read as unchecked) to its original value, for every starting
state. -/
theorem c9_toggle_file_twice_involution (cfg : RepomixCfg) (R : Path)
    (now : Nat) (stat? : Option Nat) (p : Path) (st : St) :
    (mget p (toggleChecked cfg R now (.file stat?) p
        (toggleChecked cfg R now (.file stat?) p st)).checked).getD false
      = (mget p st.checked).getD false := by
  simp [toggleChecked, invalidateDirectory, invalidateParentDirectories,
    mget_mset_self]


/-- C1: `getDirectorySelectionState` returns the tri-state verdict derived
only from the directory's eligible children, exactly as the spec states
it (`specDirVerdict` is written from the claim's words): any eligible
child directory in the partial state forces partial; all eligible
children checked (files by stored bit, subdirectories by having the all
state) gives all; zero checked gives none; zero eligible children gives
none; a mix gives partial.  The caches are assumed consistent (the
invariant every honestly reached state satisfies; empty caches satisfy it
trivially), and sibling names are distinct as on a real file system. -/
theorem c1_getDirectorySelectionState_matches_spec (cfg : RepomixCfg)
    (R : Path) (now : Nat) (T : FSNode) (q : Path) (cs : FSEntries) (st : St)
    (hwf : wfN T = true) (hfind : findRel T q = some (.dir cs))
    (hfv : FvOK cfg R now T st.fileC)
    (hdo : DirOK cfg R now st.checked T st.dirC) :
    (getDirState cfg R now (.dir cs) (R ++ q) st).1 =
      specDirVerdict cfg R st.checked (.dir cs) (R ++ q)
    ∧ (specKids cfg R st.checked cs (R ++ q) = [] →
        (getDirState cfg R now (.dir cs) (R ++ q) st).1 = Verdict.vnone)
    ∧ ((specKids cfg R st.checked cs (R ++ q)).any (fun k => k.2) = true →
        (getDirState cfg R now (.dir cs) (R ++ q) st).1 = Verdict.vpart) := by
  have h := (getDirState_spec cfg R now T q (.dir cs) st hwf hfind hfv hdo).1
  refine ⟨h, ?_, ?_⟩
  · intro hnil
    rw [h]
    simp [specDirVerdict, specAgg, hnil]
  · intro hany
    rw [h]
    simp [specDirVerdict, specAgg, hany]

/-- C1 witness: in a workspace `w` holding directory `D` with eligible
files `a` (checked) and `b` (unchecked), empty caches, and no ignore
patterns, the computed verdict for `D` is partial. -/
theorem c1_getDirectorySelectionState_matches_spec_witness :
    (getDirState ⟨[], Option.none⟩ ["w"] 100
      (.dir (.cons "a" (.file (some 10)) (.cons "b" (.file (some 10)) .nil)))
      (["w"] ++ ["D"])
      ⟨[(["w", "D", "a"], true)], [], [], 0⟩).1 = Verdict.vpart := by
  have h := (c1_getDirectorySelectionState_matches_spec ⟨[], Option.none⟩ ["w"] 100
    (.dir (.cons "D"
      (.dir (.cons "a" (.file (some 10)) (.cons "b" (.file (some 10)) .nil))) .nil))
    ["D"] (.cons "a" (.file (some 10)) (.cons "b" (.file (some 10)) .nil))
    ⟨[(["w", "D", "a"], true)], [], [], 0⟩
    (by decide) (by rfl)
    (by intro k vv ts hmem hfresh; simp at hmem)
    (by intro k v ts hmem hfresh; simp at hmem)).1
  exact h.trans (by decide)


/-!
## Invalidation lemmas (toward C4 and C2)
-/

theorem pfx_trans (a b c : Path) (h1 : pfx a b = true) (h2 : pfx b c = true) :
    pfx a c = true := by
  rw [pfx_iff_isPrefixOf] at h1 h2 ⊢
  exact h1.trans h2

theorem pfx_length_le (a b : Path) (h : pfx a b = true) : a.length ≤ b.length := by
  rw [pfx_iff_isPrefixOf] at h
  exact h.length_le

theorem pfx_antisymm_len (a b c : Path) (h1 : pfx a c = true) (h2 : pfx b c = true)
    (hl : a.length = b.length) : a = b := by
  rw [pfx_iff_isPrefixOf] at h1 h2
  have hab : a <+: b := List.prefix_of_prefix_length_le h1 h2 (le_of_eq hl)
  exact hab.eq_of_length hl

theorem mget_mdel_none {α : Type} (k k₀ : Path) (m : List (Path × α))
    (h : mget k m = Option.none) : mget k (mdel k₀ m) = Option.none := by
  by_cases he : k₀ = k
  · subst he; exact mget_mdel_self k₀ m
  · rw [mget_mdel_ne k k₀ m he]; exact h

theorem ipa_none_mono (f : Nat) (R cur : Path) (m : List (Path × (Verdict × Nat)))
    (k : Path) (h : mget k m = Option.none) :
    mget k (invalidateParentsAux f R cur m) = Option.none := by
  induction f generalizing cur m with
  | zero => simpa [invalidateParentsAux] using h
  | succ f ih =>
    unfold invalidateParentsAux
    by_cases h1 : cur = R
    · simpa [h1] using h
    · simp only [h1, if_false]
      by_cases h2 : cur.dropLast = cur
      · simpa [h2] using h
      · simp only [h2, if_false]
        exact ih _ _ (mget_mdel_none k _ m h)

theorem ipa_deletes (R : Path) (q : Path) :
    ∀ (m : List (Path × (Verdict × Nat))) (f : Nat), (R ++ q).length + 1 ≤ f →
      ∀ i, i < q.length →
        mget (R ++ q.take i) (invalidateParentsAux f R (R ++ q) m) = Option.none := by
  induction q using List.reverseRecOn with
  | nil => intro m f hf i hi; simp at hi
  | append_singleton q₀ a ih =>
    intro m f hf i hi
    match f, hf with
    | f + 1, hf =>
    have hne : ¬(R ++ (q₀ ++ [a]) = R) := by
      intro hc
      have := congrArg List.length hc
      simp at this
    have hdl : (R ++ (q₀ ++ [a])).dropLast = R ++ q₀ := by
      rw [← List.append_assoc, List.dropLast_concat]
    have hne2 : ¬((R ++ (q₀ ++ [a])).dropLast = R ++ (q₀ ++ [a])) := by
      rw [hdl]
      intro hc
      have := congrArg List.length hc
      simp at this
    unfold invalidateParentsAux
    simp only [hne, if_false, hne2]
    rw [hdl]
    have hf' : (R ++ q₀).length + 1 ≤ f := by
      simp only [List.length_append, List.length_cons, List.length_nil] at hf ⊢
      omega
    by_cases hcase : i < q₀.length
    · have htake : (q₀ ++ [a]).take i = q₀.take i := by
        rw [List.take_append_of_le_length (by omega)]
      rw [htake]
      exact ih (mdel (R ++ q₀) m) f hf' i hcase
    · have hieq : i = q₀.length := by
        simp [List.length_append] at hi
        omega
      have htake : (q₀ ++ [a]).take i = q₀ := by
        rw [hieq, List.take_append_of_le_length (le_refl _), List.take_length]
      rw [htake]
      exact ipa_none_mono f R (R ++ q₀) _ _ (mget_mdel_self _ m)


theorem mem_mget_ne_none {α : Type} (k : Path) (v : α) (m : List (Path × α))
    (h : (k, v) ∈ m) : mget k m ≠ Option.none := by
  induction m with
  | nil => simp at h
  | cons kv r ih =>
    obtain ⟨k_, v_⟩ := kv
    rcases List.mem_cons.mp h with he | he
    · obtain ⟨hk, _⟩ := Prod.mk.injEq .. ▸ he
      injection he with hk _
      subst hk
      simp [mget]
    · by_cases hk : k_ = k
      · simp [mget, hk]
      · simpa [mget, hk] using ih he

theorem mem_ipa (f : Nat) (root cur : Path) (m : List (Path × (Verdict × Nat)))
    (x : Path × (Verdict × Nat)) (h : x ∈ invalidateParentsAux f root cur m) :
    x ∈ m := by
  induction f generalizing cur m with
  | zero => simpa [invalidateParentsAux] using h
  | succ f ih =>
    unfold invalidateParentsAux at h
    by_cases h1 : cur = root
    · simpa [h1] using h
    · simp only [h1, if_false] at h
      by_cases h2 : cur.dropLast = cur
      · simpa [h2] using h
      · simp only [h2, if_false] at h
        exact mem_mdel x _ m (ih _ _ h)

theorem pfx_append_cancel (R a b : Path) (h : pfx (R ++ a) (R ++ b) = true) :
    a <+: b := by
  rw [pfx_iff_isPrefixOf] at h
  exact (List.prefix_append_right_inj R).mp h

/-- The stored bits of paths outside a subtree do not affect the
spec-derived kid contributions of that subtree. -/
theorem specKids_congr (cfg : RepomixCfg) (R : Path)
    (c c' : List (Path × Bool)) :
    ∀ es p, (∀ j, pfx p j = true → mget j c' = mget j c) →
      specKids cfg R c' es p = specKids cfg R c es p := by
  intro es
  induction es using fsEntriesRec with
  | hnil => intro p h; rfl
  | hfile n s rest ih =>
    intro p h
    simp only [specKids]
    rw [h (p ++ [n]) (pfx_append p [n]), ih p h]
  | hdir n cs rest ihc ihr =>
    intro p h
    simp only [specKids]
    rw [ihc (p ++ [n])
      (fun j hj => h j (pfx_trans p (p ++ [n]) j (pfx_append p [n]) hj)),
      ihr p h]

/-- The same congruence for the derived directory verdict. -/
theorem specDirVerdict_congr (cfg : RepomixCfg) (R : Path)
    (c c' : List (Path × Bool)) (t : FSNode) (p : Path)
    (h : ∀ j, pfx p j = true → mget j c' = mget j c) :
    specDirVerdict cfg R c' t p = specDirVerdict cfg R c t p := by
  cases t with
  | file s => rfl
  | dir cs =>
    simp only [specDirVerdict]
    rw [specKids_congr cfg R c c' cs p h]

/-- An all verdict forces every contribution's checked flag. -/
theorem specAgg_vall_all (ks : List (Bool × Bool))
    (h : specAgg ks = Verdict.vall) : ks.all (fun k => k.1) = true := by
  unfold specAgg at h
  by_cases h1 : ks.any (fun k => k.2) = true
  · rw [if_pos h1] at h; cases h
  · rw [if_neg h1] at h
    by_cases h2 : (!ks.isEmpty && ks.all (fun k => k.1)) = true
    · exact (Bool.and_eq_true .. |>.mp h2).2
    · rw [if_neg h2] at h
      by_cases h3 : ks.all (fun k => !k.1) = true
      · rw [if_pos h3] at h; cases h
      · rw [if_neg h3] at h; cases h

/-- An eligible file entry of a listing contributes its stored bit to the
spec-derived kid list. -/
theorem specKids_mem_file (cfg : RepomixCfg) (R : Path)
    (checked : List (Path × Bool)) :
    ∀ cs p n s, entryMem n (.file s) cs →
      eligN cfg R (p ++ [n]) (.file s) = true →
      ((mget (p ++ [n]) checked).getD false, false)
        ∈ specKids cfg R checked cs p := by
  intro cs
  induction cs using fsEntriesRec with
  | hnil => intro p n s hm he; exact absurd hm (by simp [entryMem])
  | hfile n0 s0 rest ih =>
    intro p n s hm he
    simp only [entryMem] at hm
    rcases hm with ⟨hn, ht⟩ | hm
    · subst hn
      injection ht with hs
      subst hs
      simp only [specKids]
      rw [if_pos he]
      exact List.mem_cons_self _ _
    · simp only [specKids]
      by_cases hh : eligN cfg R (p ++ [n0]) (.file s0) = true
      · rw [if_pos hh]
        exact List.mem_cons_of_mem _ (ih p n s hm he)
      · rw [if_neg hh]
        exact ih p n s hm he
  | hdir n0 cs0 rest ihc ihr =>
    intro p n s hm he
    simp only [entryMem] at hm
    rcases hm with ⟨hn, ht⟩ | hm
    · cases ht
    · simp only [specKids]
      by_cases hh : eligN cfg R (p ++ [n0]) (.dir cs0) = true
      · rw [if_pos hh]
        exact List.mem_cons_of_mem _ (ihr p n s hm he)
      · rw [if_neg hh]
        exact ihr p n s hm he

/-- `setChecked` with a re-render written out as one record. -/
theorem setChecked_eq (R : Path) (now : Nat) (p : Path) (ck : Bool) (st : St) :
    setChecked R now p ck true st =
      ⟨mset p ck st.checked,
       invalidateParentsAux (p.length + 1) R p
         (st.dirC.filter (fun kv => !(pfx p kv.1))),
       st.fileC.filter (fun kv => !(pfx p kv.1)),
       st.events + 1⟩ := rfl


/-- After `setChecked` on a descendant, every surviving fresh cache entry
still matches the spec verdict against the updated store: survivors are
prefix-incomparable with the written path. -/
theorem setChecked_dirOK (cfg : RepomixCfg) (R : Path) (now : Nat)
    (T : FSNode) (qD : Path) (cs : FSEntries) (n : String) (s : Option Nat)
    (ck : Bool) (st : St)
    (hwf : wfN T = true) (hfind : findRel T qD = some (.dir cs))
    (hmem : entryMem n (.file s) cs)
    (hdo : DirOK cfg R now st.checked T st.dirC) :
    DirOK cfg R now (mset (R ++ qD ++ [n]) ck st.checked) T
      (invalidateParentsAux ((R ++ qD ++ [n]).length + 1) R (R ++ qD ++ [n])
        (st.dirC.filter (fun kv => !(pfx (R ++ qD ++ [n]) kv.1)))) := by
  have hcs : wfE cs = true := by
    simpa [wfN] using wf_findRel T qD _ hwf hfind
  have hfile : findRel T (qD ++ [n]) = some (.file s) :=
    findRel_snoc T qD cs n _ hfind (wfE_entryMem_findEntry n _ cs hcs hmem)
  intro k v ts hmemk hfresh
  have hmem₀ : (k, (v, ts)) ∈ st.dirC.filter
      (fun kv => !(pfx (R ++ qD ++ [n]) kv.1)) :=
    mem_ipa _ _ _ _ _ hmemk
  have hmem₁ := (List.mem_filter.mp hmem₀).1
  have hnp : pfx (R ++ qD ++ [n]) k = false := by
    have := (List.mem_filter.mp hmem₀).2
    simpa using this
  obtain ⟨q, t, hk, hfr, hnf, hv⟩ := hdo _ _ _ hmem₁ hfresh
  refine ⟨q, t, hk, hfr, hnf, ?_⟩
  have hnotdesc : pfx k (R ++ qD ++ [n]) = false := by
    by_contra hc
    have hpk : pfx k (R ++ qD ++ [n]) = true := by
      cases h : pfx k (R ++ qD ++ [n])
      · exact absurd h hc
      · rfl
    rw [hk, List.append_assoc] at hpk
    have hqpre : q <+: qD ++ [n] := pfx_append_cancel R q (qD ++ [n]) hpk
    by_cases hlen : q.length = (qD ++ [n]).length
    · have hqe : q = qD ++ [n] := hqpre.eq_of_length hlen
      subst hqe
      rw [hfile] at hfr
      injection hfr with h1
      rw [← h1] at hnf
      simp [isFileN] at hnf
    · have hlt : q.length < (qD ++ [n]).length :=
        lt_of_le_of_ne hqpre.length_le hlen
      have htk : q = (qD ++ [n]).take q.length := List.prefix_iff_eq_take.mp hqpre
      have hnone := ipa_deletes R (qD ++ [n])
        (st.dirC.filter (fun kv => !(pfx (R ++ qD ++ [n]) kv.1)))
        ((R ++ qD ++ [n]).length + 1)
        (by simp [List.length_append]) q.length hlt
      rw [← List.append_assoc, ← htk, ← hk] at hnone
      exact mem_mget_ne_none k (v, ts) _ hmemk hnone
  rw [hv]
  refine (specDirVerdict_congr cfg R st.checked _ t k ?_).symm
  intro j hj
  have hjne : R ++ qD ++ [n] ≠ j := by
    intro hc
    subst hc
    rw [hj] at hnotdesc
    cases hnotdesc
  exact mget_mset_ne j (R ++ qD ++ [n]) ck st.checked hjne

/-- C4 counterexample: directory `D` holds the single eligible file `a`,
checked; the first `getDirectorySelectionState(D)` computes and caches
the all verdict; after `setChecked(a, false, true)` the recomputation
returns none, not the partial the claim promises. -/
theorem c4_recompute_not_partial_counterexample :
    (getDirState ⟨[], Option.none⟩ ["w"] 100
        (.dir (.cons "a" (.file (some 10)) .nil)) (["w"] ++ ["D"])
        ⟨[(["w", "D", "a"], true)], [], [], 0⟩).1 = Verdict.vall
    ∧ (getDirState ⟨[], Option.none⟩ ["w"] 100
        (.dir (.cons "a" (.file (some 10)) .nil)) (["w"] ++ ["D"])
        (setChecked ["w"] 100 (["w"] ++ ["D"] ++ ["a"]) false true
          (getDirState ⟨[], Option.none⟩ ["w"] 100
            (.dir (.cons "a" (.file (some 10)) .nil)) (["w"] ++ ["D"])
            ⟨[(["w", "D", "a"], true)], [], [], 0⟩).2)).1 = Verdict.vnone := by
  exact ⟨by decide, by decide⟩

/-- C4 amended: `setChecked(a, false, true)` on an eligible file child of
`D` removes the cached verdict of `D` and of every ancestor up to the
workspace root, and the next `getDirectorySelectionState(D)` recomputes
the spec verdict from the updated store — a verdict that can no longer be
all (though it is none, not partial, when `a` was the only eligible
child). -/
theorem c4_setChecked_invalidates_and_recomputes (cfg : RepomixCfg)
    (R : Path) (now : Nat) (T : FSNode) (qD : Path) (cs : FSEntries)
    (n : String) (s : Option Nat) (st : St)
    (hwf : wfN T = true) (hfind : findRel T qD = some (.dir cs))
    (hmem : entryMem n (.file s) cs)
    (helig : eligN cfg R (R ++ qD ++ [n]) (.file s) = true)
    (hfv : FvOK cfg R now T st.fileC)
    (hdo : DirOK cfg R now st.checked T st.dirC) :
    (∀ i, i ≤ qD.length →
      mget (R ++ qD.take i)
        (setChecked R now (R ++ qD ++ [n]) false true st).dirC = Option.none)
    ∧ (getDirState cfg R now (.dir cs) (R ++ qD)
        (setChecked R now (R ++ qD ++ [n]) false true st)).1
      = specDirVerdict cfg R
          (setChecked R now (R ++ qD ++ [n]) false true st).checked
          (.dir cs) (R ++ qD)
    ∧ (getDirState cfg R now (.dir cs) (R ++ qD)
        (setChecked R now (R ++ qD ++ [n]) false true st)).1 ≠ Verdict.vall := by
  rw [setChecked_eq]
  have hfv₂ : FvOK cfg R now T
      (st.fileC.filter (fun kv => !(pfx (R ++ qD ++ [n]) kv.1))) := by
    intro k vv ts hm hf
    exact hfv _ _ _ (List.mem_filter.mp hm).1 hf
  have hdo₂ := setChecked_dirOK cfg R now T qD cs n s false st hwf hfind hmem hdo
  have hgds := getDirState_spec cfg R now T qD (.dir cs)
    ⟨mset (R ++ qD ++ [n]) false st.checked,
     invalidateParentsAux ((R ++ qD ++ [n]).length + 1) R (R ++ qD ++ [n])
       (st.dirC.filter (fun kv => !(pfx (R ++ qD ++ [n]) kv.1))),
     st.fileC.filter (fun kv => !(pfx (R ++ qD ++ [n]) kv.1)),
     st.events + 1⟩ hwf hfind hfv₂ hdo₂
  refine ⟨?_, hgds.1, ?_⟩
  · intro i hi
    have hnone := ipa_deletes R (qD ++ [n])
      (st.dirC.filter (fun kv => !(pfx (R ++ qD ++ [n]) kv.1)))
      ((R ++ qD ++ [n]).length + 1)
      (by simp [List.length_append]) i
      (by simp only [List.length_append, List.length_cons, List.length_nil]; omega)
    rw [← List.append_assoc, List.take_append_of_le_length hi] at hnone
    exact hnone
  · rw [hgds.1]
    intro hall
    have hk := specKids_mem_file cfg R (mset (R ++ qD ++ [n]) false st.checked)
      cs (R ++ qD) n s hmem helig
    rw [mget_mset_self] at hk
    have hallk := specAgg_vall_all _ hall
    have := (List.all_eq_true.mp hallk) _ hk
    simp at this

/-- C4 witness: the amended theorem instantiated on the workspace `w`
holding `D` with the single eligible checked file `a` and empty caches:
after `setChecked` the recomputed verdict for `D` is not all. -/
theorem c4_setChecked_invalidates_and_recomputes_witness :
    (getDirState ⟨[], Option.none⟩ ["w"] 100
        (.dir (.cons "a" (.file (some 10)) .nil)) (["w"] ++ ["D"])
        (setChecked ["w"] 100 (["w"] ++ ["D"] ++ ["a"]) false true
          ⟨[(["w", "D", "a"], true)], [], [], 0⟩)).1 ≠ Verdict.vall := by
  exact (c4_setChecked_invalidates_and_recomputes ⟨[], Option.none⟩ ["w"] 100
    (.dir (.cons "D" (.dir (.cons "a" (.file (some 10)) .nil)) .nil))
    ["D"] (.cons "a" (.file (some 10)) .nil) "a" (some 10)
    ⟨[(["w", "D", "a"], true)], [], [], 0⟩
    (by decide) (by rfl) (Or.inl ⟨rfl, rfl⟩) (by decide)
    (by intro k vv ts hm hf; simp at hm)
    (by intro k v ts hm hf; simp at hm)).2.2


/-!
## Propagation lemmas (toward C2)
-/

theorem pfx_snoc_sibling (p : Path) (n n0 : String) (j : Path) (hne : n0 ≠ n)
    (hj : pfx (p ++ [n]) j = true) : pfx (p ++ [n0]) j = false := by
  cases hp : pfx (p ++ [n0]) j
  · rfl
  · exfalso
    have heq := pfx_antisymm_len (p ++ [n]) (p ++ [n0]) j hj hp
      (by simp [List.length_append])
    have := app_cancel p [n] [n0] heq
    simp only [List.cons.injEq, and_true] at this
    exact hne this.symm

theorem snoc_ne_of_under (p : Path) (n n0 : String) (j : Path) (hne : n0 ≠ n)
    (hj : pfx (p ++ [n]) j = true) : p ++ [n0] ≠ j := by
  intro hc
  have := pfx_snoc_sibling p n n0 j hne hj
  rw [hc] at this
  rw [pfx_refl] at this
  cases this

/-- The validation-cache invariant survives dropping entries. -/
theorem fvOK_filter (cfg : RepomixCfg) (R : Path) (now : Nat) (T : FSNode)
    (m : List (Path × ((Bool × Bool) × Nat)))
    (f : Path × ((Bool × Bool) × Nat) → Bool)
    (h : FvOK cfg R now T m) : FvOK cfg R now T (m.filter f) := by
  intro k vv ts hm hf
  exact h _ _ _ (List.mem_filter.mp hm).1 hf

/-- The `selectAllRecursive` file pass never writes the store key of an
ineligible file: on that entry the computed (or consistently cached)
validation fails the eligibility test and the write is skipped. -/
theorem saFiles_spec (cfg : RepomixCfg) (R : Path) (now : Nat) (T : FSNode)
    (hwf : wfN T = true) (k : Path) (qk : Path) (sk : Option Nat)
    (hkk : k = R ++ qk) (hfk : findRel T qk = some (.file sk))
    (helig : eligN cfg R k (.file sk) = false) :
    ∀ es q cs0 st, findRel T q = some (.dir cs0) →
      (∀ n t, entryMem n t es → findEntry n cs0 = some t) →
      FvOK cfg R now T st.fileC →
      mget k (selectAllFiles cfg R now es (R ++ q) st).checked
          = mget k st.checked
      ∧ FvOK cfg R now T (selectAllFiles cfg R now es (R ++ q) st).fileC := by
  intro es
  induction es using fsEntriesRec with
  | hnil => intro q cs0 st hq hsub hfv; exact ⟨rfl, hfv⟩
  | hdir n cs rest ihc ih =>
    intro q cs0 st hq hsub hfv
    simp only [selectAllFiles]
    exact ih q cs0 st hq (fun n' t' hm => hsub n' t' (Or.inr hm)) hfv
  | hfile n s rest ih =>
    intro q cs0 st hq hsub hfv
    have hfe : findEntry n cs0 = some (.file s) := hsub n _ (Or.inl ⟨rfl, rfl⟩)
    have hfind₁ : findRel T (q ++ [n]) = some (.file s) :=
      findRel_snoc T q cs0 n _ hq hfe
    rcases hE : valEntry cfg R now true s (R ++ q ++ [n]) st with ⟨vv, st₁⟩
    have hspec := valEntry_spec cfg R now T (q ++ [n]) (.file s) st hfv hfind₁
    rw [← List.append_assoc] at hspec
    dsimp only [isFileN, statOf] at hspec
    rw [hE] at hspec
    dsimp only at hspec
    obtain ⟨hvv, hck1, hdc1, hev1, hfv1⟩ := hspec
    simp only [selectAllFiles]
    rw [hE]
    dsimp only
    by_cases hkey : R ++ q ++ [n] = k
    · have hq' : q ++ [n] = qk := by
        apply app_cancel R
        rw [← List.append_assoc, hkey]
        exact hkk
      have hfx := hfind₁
      rw [hq', hfk] at hfx
      injection hfx with h1
      injection h1 with h2
      have hcf : (!vv.1 && vv.2) = false := by
        rw [hvv]
        show eligN cfg R (R ++ q ++ [n]) (.file s) = false
        rw [hkey, ← h2]
        exact helig
      rw [if_neg (by simp [hcf])]
      obtain ⟨ih1, ih2⟩ :=
        ih q cs0 st₁ hq (fun n' t' hm => hsub n' t' (Or.inr hm)) hfv1
      exact ⟨ih1.trans (by rw [hck1]), ih2⟩
    · by_cases hel : (!vv.1 && vv.2) = true
      · rw [if_pos hel]
        obtain ⟨ih1, ih2⟩ :=
          ih q cs0 { st₁ with checked := mset (R ++ q ++ [n]) true st₁.checked }
            hq (fun n' t' hm => hsub n' t' (Or.inr hm)) hfv1
        refine ⟨ih1.trans ?_, ih2⟩
        dsimp only
        rw [mget_mset_ne k (R ++ q ++ [n]) true _ hkey, hck1]
      · rw [if_neg hel]
        obtain ⟨ih1, ih2⟩ :=
          ih q cs0 st₁ hq (fun n' t' hm => hsub n' t' (Or.inr hm)) hfv1
        exact ⟨ih1.trans (by rw [hck1]), ih2⟩

/-- One `selectAllRecursive` entry step preserves an ineligible file's
stored bit and the validation-cache invariant. -/
theorem saStep_spec (cfg : RepomixCfg) (R : Path) (now : Nat) (T : FSNode)
    (hwf : wfN T = true) (k : Path) (qk : Path) (sk : Option Nat)
    (hkk : k = R ++ qk) (hfk : findRel T qk = some (.file sk))
    (helig : eligN cfg R k (.file sk) = false)
    (cs : FSEntries) (q : Path) (cs0 : FSEntries) (s : St × List Path)
    (hq : findRel T q = some (.dir cs0))
    (hsub : ∀ n t, entryMem n t cs → findEntry n cs0 = some t)
    (hfv : FvOK cfg R now T s.1.fileC) :
    mget k (selectAllStep cfg R now cs (R ++ q) s).1.1.checked
        = mget k s.1.checked
    ∧ FvOK cfg R now T (selectAllStep cfg R now cs (R ++ q) s).1.1.fileC := by
  unfold selectAllStep
  dsimp only
  by_cases h1 : R ++ q ∈ s.2
  · rw [if_pos h1]
    exact ⟨rfl, fvOK_filter cfg R now T s.1.fileC _ hfv⟩
  · rw [if_neg h1]
    by_cases h2 : ((R ++ q) :: s.2).length > 50
    · rw [if_pos h2]
      exact ⟨rfl, fvOK_filter cfg R now T s.1.fileC _ hfv⟩
    · rw [if_neg h2]
      exact saFiles_spec cfg R now T hwf k qk sk hkk hfk helig cs q cs0
        (invalidateDirectory (R ++ q) (invalidateDirectory (R ++ q) s.1))
        hq hsub
        (fvOK_filter cfg R now T _ _ (fvOK_filter cfg R now T s.1.fileC _ hfv))

/-- The `selectAllRecursive` directory pass preserves an ineligible
file's stored bit (directory writes never hit a file key) and the
validation-cache invariant. -/
theorem saDirs_spec (cfg : RepomixCfg) (R : Path) (now : Nat) (T : FSNode)
    (hwf : wfN T = true) (k : Path) (qk : Path) (sk : Option Nat)
    (hkk : k = R ++ qk) (hfk : findRel T qk = some (.file sk))
    (helig : eligN cfg R k (.file sk) = false) :
    ∀ es q cs0 s, findRel T q = some (.dir cs0) →
      (∀ n t, entryMem n t es → findEntry n cs0 = some t) →
      FvOK cfg R now T s.1.fileC →
      mget k (selectAllDirs cfg R now es (R ++ q) s).1.checked
          = mget k s.1.checked
      ∧ FvOK cfg R now T (selectAllDirs cfg R now es (R ++ q) s).1.fileC := by
  intro es
  induction es using fsEntriesRec with
  | hnil => intro q cs0 s hq hsub hfv; exact ⟨rfl, hfv⟩
  | hfile n s0 rest ih =>
    intro q cs0 s hq hsub hfv
    simp only [selectAllDirs]
    exact ih q cs0 s hq (fun n' t' hm => hsub n' t' (Or.inr hm)) hfv
  | hdir n cs rest ihc ih =>
    intro q cs0 s hq hsub hfv
    have hfe : findEntry n cs0 = some (.dir cs) := hsub n _ (Or.inl ⟨rfl, rfl⟩)
    have hfind₁ : findRel T (q ++ [n]) = some (.dir cs) :=
      findRel_snoc T q cs0 n _ hq hfe
    have hkey : R ++ q ++ [n] ≠ k := by
      intro hc
      have hq' : q ++ [n] = qk := by
        apply app_cancel R
        rw [← List.append_assoc, hc]
        exact hkk
      have hfx := hfind₁
      rw [hq', hfk] at hfx
      injection hfx with h1
      cases h1
    rcases hV : valDirEntry cfg R now (R ++ q ++ [n]) s.1 with ⟨ig, st₁⟩
    have hspec := valDirEntry_spec cfg R now T (q ++ [n]) cs s.1 hfv hfind₁
    rw [← List.append_assoc] at hspec
    rw [hV] at hspec
    dsimp only at hspec
    obtain ⟨hig, hck1, hdc1, hev1, hfv1⟩ := hspec
    simp only [selectAllDirs]
    rw [hV]
    dsimp only
    by_cases hi : ig = true
    · rw [if_pos hi]
      obtain ⟨ih1, ih2⟩ :=
        ih q cs0 (st₁, s.2) hq (fun n' t' hm => hsub n' t' (Or.inr hm)) hfv1
      exact ⟨ih1.trans (by rw [hck1]), ih2⟩
    · rw [if_neg hi]
      have hwfsub : wfE cs = true := by
        have := wf_findRel T (q ++ [n]) (.dir cs) hwf hfind₁
        simpa [wfN] using this
      have hsub₁ : ∀ n' t', entryMem n' t' cs → findEntry n' cs = some t' :=
        fun n' t' hm => wfE_entryMem_findEntry n' t' cs hwfsub hm
      have hfvmid : FvOK cfg R now T (invalidateDirectory (R ++ q ++ [n])
          { st₁ with checked := mset (R ++ q ++ [n]) true st₁.checked }).fileC :=
        fvOK_filter cfg R now T st₁.fileC _ hfv1
      have hmid : mget k (invalidateDirectory (R ++ q ++ [n])
          { st₁ with checked := mset (R ++ q ++ [n]) true st₁.checked }).checked
          = mget k s.1.checked := by
        show mget k (mset (R ++ q ++ [n]) true st₁.checked) = mget k s.1.checked
        rw [mget_mset_ne k (R ++ q ++ [n]) true _ hkey, hck1]
      obtain ⟨hs1, hs2⟩ := saStep_spec cfg R now T hwf k qk sk hkk hfk helig cs
        (q ++ [n]) cs
        (invalidateDirectory (R ++ q ++ [n])
          { st₁ with checked := mset (R ++ q ++ [n]) true st₁.checked }, s.2)
        hfind₁ hsub₁ hfvmid
      rw [← List.append_assoc] at hs1 hs2
      rcases hS : selectAllStep cfg R now cs (R ++ q ++ [n])
          (invalidateDirectory (R ++ q ++ [n])
            { st₁ with checked := mset (R ++ q ++ [n]) true st₁.checked }, s.2)
        with ⟨sA, go⟩
      rw [hS] at hs1 hs2
      dsimp only at hs1 hs2
      dsimp only
      cases go
      · rw [if_neg (by simp)]
        obtain ⟨ih1, ih2⟩ :=
          ih q cs0 sA hq (fun n' t' hm => hsub n' t' (Or.inr hm)) hs2
        exact ⟨ih1.trans (hs1.trans hmid), ih2⟩
      · rw [if_pos rfl]
        have ihsub := ihc (q ++ [n]) cs sA hfind₁ hsub₁ hs2
        rw [← List.append_assoc] at ihsub
        obtain ⟨is1, is2⟩ := ihsub
        obtain ⟨ih1, ih2⟩ :=
          ih q cs0 (selectAllDirs cfg R now cs (R ++ q ++ [n]) sA) hq
            (fun n' t' hm => hsub n' t' (Or.inr hm)) is2
        exact ⟨ih1.trans (is1.trans (hs1.trans hmid)), ih2⟩

/-- A key absent from the store is not among the checked items. -/
theorem mget_none_not_in_getCheckedItems (k : Path) (st : St)
    (h : mget k st.checked = Option.none) : ¬ k ∈ getCheckedItems st := by
  intro hk
  unfold getCheckedItems at hk
  obtain ⟨kv, hmem, hfst⟩ := List.mem_map.mp hk
  obtain ⟨hmem₀, hsnd⟩ := List.mem_filter.mp hmem
  obtain ⟨k₀, b⟩ := kv
  dsimp only at hfst
  subst hfst
  exact mem_mget_ne_none k₀ b st.checked hmem₀ h


/-- C8: a file whose stat is missing fails closed, a file over the
configured maximum fails the size check, a size-failing file's stored
bit survives `selectAll()` unchanged (so a previously unchecked one never
appears in `getCheckedItems()` afterwards), and such a file contributes
nothing to a directory's eligible-children aggregation. -/
theorem c8_size_limit_excluded (cfg : RepomixCfg) (R : Path) (now : Nat)
    (T : FSNode) (q : Path) (s? : Option Nat) (st : St)
    (hwf : wfN T = true) (hfv : FvOK cfg R now T st.fileC)
    (hfind : findRel T q = some (.file s?))
    (hsz : isFileSizeValid cfg s? = false) :
    isFileSizeValid cfg Option.none = false
    ∧ (∀ sz, maxSizeOf cfg < sz → isFileSizeValid cfg (some sz) = false)
    ∧ mget (R ++ q) (selectAll cfg R now "" T st).checked
        = mget (R ++ q) st.checked
    ∧ (mget (R ++ q) st.checked = Option.none →
        ¬ (R ++ q) ∈ getCheckedItems (selectAll cfg R now "" T st))
    ∧ (∀ checked n rest p, specKids cfg R checked (.cons n (.file s?) rest) p
          = specKids cfg R checked rest p) := by
  have heligAll : ∀ p', eligN cfg R p' (.file s?) = false := by
    intro p'
    unfold eligN validOf
    cases hig : shouldIgnoreFile cfg R p' <;>
      simp [hig, isFileN, statOf, hsz]
  have hmain : mget (R ++ q) (selectAll cfg R now "" T st).checked
      = mget (R ++ q) st.checked := by
    cases T with
    | file s0 => rfl
    | dir cs =>
      have hwfsub : wfE cs = true := by simpa [wfN] using hwf
      have hsub : ∀ n t, entryMem n t cs → findEntry n cs = some t :=
        fun n t hm => wfE_entryMem_findEntry n t cs hwfsub hm
      have hq0 : findRel (FSNode.dir cs) ([] : Path) = some (.dir cs) := rfl
      obtain ⟨hs1, hs2⟩ := saStep_spec cfg R now (.dir cs) hwf (R ++ q) q s?
        rfl hfind (heligAll (R ++ q)) cs [] cs (st, []) hq0 hsub hfv
      rw [List.append_nil] at hs1 hs2
      show mget (R ++ q) (selectAllRecursive cfg R now (.dir cs) R
        (st, [])).1.checked = mget (R ++ q) st.checked
      unfold selectAllRecursive
      dsimp only
      rcases hS : selectAllStep cfg R now cs R (st, []) with ⟨sA, go⟩
      rw [hS] at hs1 hs2
      dsimp only at hs1 hs2
      dsimp only
      cases go
      · rw [if_neg (by simp)]
        exact hs1
      · rw [if_pos rfl]
        have hdirs := saDirs_spec cfg R now (.dir cs) hwf (R ++ q) q s?
          rfl hfind (heligAll (R ++ q)) cs [] cs sA hq0 hsub hs2
        rw [List.append_nil] at hdirs
        exact hdirs.1.trans hs1
  refine ⟨rfl, ?_, hmain, ?_, ?_⟩
  · intro sz h
    simp only [isFileSizeValid, decide_eq_false_iff_not]
    omega
  · intro h0
    exact mget_none_not_in_getCheckedItems (R ++ q) _ (hmain.trans h0)
  · intro checked n rest p
    simp only [specKids]
    rw [if_neg (by simp [heligAll (p ++ [n])])]

/-- C8 witness: an oversized file `big` (60 MB against the default 50 MB
cap) in the workspace, unchecked and with empty caches, is still not
among the checked items after a full `selectAll()`. -/
theorem c8_size_limit_excluded_witness :
    ¬ (["w"] ++ ["big"]) ∈ getCheckedItems
      (selectAll ⟨[], Option.none⟩ ["w"] 100 ""
        (.dir (.cons "big" (.file (some 60000000)) .nil))
        ⟨[], [], [], 0⟩) := by
  exact (c8_size_limit_excluded ⟨[], Option.none⟩ ["w"] 100
    (.dir (.cons "big" (.file (some 60000000)) .nil)) ["big"]
    (some 60000000) ⟨[], [], [], 0⟩ (by decide)
    (by intro k vv ts hm hf; simp at hm) (by rfl) (by decide)).2.2.2.1 rfl


/-!
## Filtered-selection lemmas (toward C7)
-/

/-- Keys outside a subtree are never written by the filtered-selection
loop. -/
theorem sfi_mget_outside (cfg : RepomixCfg) (R : Path) (qs : String) :
    ∀ es p s j, (pfx p j = false ∨ j.length ≤ p.length) →
      mget j (sfiEntries cfg R qs es p s).1.checked = mget j s.1.checked := by
  intro es
  induction es using fsEntriesRec with
  | hnil => intro p s j hj; rfl
  | hfile n s0 rest ih =>
    intro p s j hj
    have hne : p ++ [n] ≠ j := by
      intro hc
      rcases hj with hj | hj
      · have hp := pfx_append p [n]
        rw [hc, hj] at hp
        cases hp
      · rw [← hc] at hj
        simp only [List.length_append, List.length_cons, List.length_nil] at hj
        omega
    simp only [sfiEntries]
    refine (ih p _ j hj).trans ?_
    split
    · rfl
    · split
      · split
        · dsimp only
          rw [mget_mset_ne j (p ++ [n]) true _ hne]
        · rfl
      · rfl
  | hdir n cs rest ihc ih =>
    intro p s j hj
    have hne : p ++ [n] ≠ j := by
      intro hc
      rcases hj with hj | hj
      · have hp := pfx_append p [n]
        rw [hc, hj] at hp
        cases hp
      · rw [← hc] at hj
        simp only [List.length_append, List.length_cons, List.length_nil] at hj
        omega
    have hj₁ : pfx (p ++ [n]) j = false ∨ j.length ≤ (p ++ [n]).length := by
      rcases hj with hj | hj
      · left
        cases hp : pfx (p ++ [n]) j
        · rfl
        · have := pfx_trans p (p ++ [n]) j (pfx_append p [n]) hp
          rw [hj] at this
          cases this
      · right
        simp only [List.length_append, List.length_cons, List.length_nil]
        omega
    simp only [sfiEntries]
    refine (ih p _ j hj).trans ?_
    split
    · rfl
    · split
      · split
        · dsimp only
          rw [mget_mset_ne j (p ++ [n]) true _ hne]
        · refine (ihc (p ++ [n]) _ j hj₁).trans ?_
          dsimp only
          rw [mget_mset_ne j (p ++ [n]) true _ hne]
      · rfl

/-- The filtered-selection loop never writes under a name that does not
occur in the listing. -/
theorem sfi_preserves_subtree (cfg : RepomixCfg) (R : Path) (qs : String) :
    ∀ es p s n j, (namesOf es).contains n = false →
      pfx (p ++ [n]) j = true →
      mget j (sfiEntries cfg R qs es p s).1.checked = mget j s.1.checked := by
  intro es
  induction es using fsEntriesRec with
  | hnil => intro p s n j hc hj; rfl
  | hfile n0 s0 rest ih =>
    intro p s n j hc hj
    simp only [namesOf, List.contains_cons, Bool.or_eq_false_iff,
      beq_eq_false_iff_ne, ne_eq] at hc
    have hne : n0 ≠ n := fun h => hc.1 h.symm
    have hkey : p ++ [n0] ≠ j := snoc_ne_of_under p n n0 j hne hj
    simp only [sfiEntries]
    refine (ih p _ n j (by simpa using hc.2) hj).trans ?_
    split
    · rfl
    · split
      · split
        · dsimp only
          rw [mget_mset_ne j (p ++ [n0]) true _ hkey]
        · rfl
      · rfl
  | hdir n0 cs rest ihc ih =>
    intro p s n j hc hj
    simp only [namesOf, List.contains_cons, Bool.or_eq_false_iff,
      beq_eq_false_iff_ne, ne_eq] at hc
    have hne : n0 ≠ n := fun h => hc.1 h.symm
    have hkey : p ++ [n0] ≠ j := snoc_ne_of_under p n n0 j hne hj
    have hsib : pfx (p ++ [n0]) j = false := pfx_snoc_sibling p n n0 j hne hj
    simp only [sfiEntries]
    refine (ih p _ n j (by simpa using hc.2) hj).trans ?_
    split
    · rfl
    · split
      · split
        · dsimp only
          rw [mget_mset_ne j (p ++ [n0]) true _ hkey]
        · refine (sfi_mget_outside cfg R qs cs (p ++ [n0]) _ j
            (Or.inl hsib)).trans ?_
          dsimp only
          rw [mget_mset_ne j (p ++ [n0]) true _ hkey]
      · rfl

/-- The filtered selection checks every eligible matching file child. -/
theorem sfi_sets_file (cfg : RepomixCfg) (R : Path) (qs : String) :
    ∀ es p s n stat?, wfE es = true → entryMem n (.file stat?) es →
      shouldIgnoreFile cfg R (p ++ [n]) = false →
      matchesSearchQuery R qs (p ++ [n]) = true →
      isFileSizeValid cfg stat? = true →
      mget (p ++ [n]) (sfiEntries cfg R qs es p s).1.checked = some true := by
  intro es
  induction es using fsEntriesRec with
  | hnil => intro p s n stat? hwf hm; exact absurd hm (by simp [entryMem])
  | hfile n0 s0 rest ih =>
    intro p s n stat? hwf hm hig hmatch hsize
    obtain ⟨hcont, _, hwfr⟩ := wfE_cons n0 _ rest hwf
    rcases hm with ⟨hn, ht⟩ | hm
    · subst hn
      injection ht with hs
      subst hs
      simp only [sfiEntries]
      rw [if_neg (by simp [hig]), if_pos hmatch, if_pos hsize]
      refine (sfi_preserves_subtree cfg R qs rest p _ n (p ++ [n]) hcont
        (pfx_refl (p ++ [n]))).trans ?_
      dsimp only
      exact mget_mset_self (p ++ [n]) true _
    · simp only [sfiEntries]
      exact ih p _ n stat? hwfr hm hig hmatch hsize
  | hdir n0 cs rest ihc ih =>
    intro p s n stat? hwf hm hig hmatch hsize
    obtain ⟨hcont, _, hwfr⟩ := wfE_cons n0 _ rest hwf
    rcases hm with ⟨hn, ht⟩ | hm
    · cases ht
    · simp only [sfiEntries]
      exact ih p _ n stat? hwfr hm hig hmatch hsize

/-- The filtered selection leaves a non-matching file child untouched. -/
theorem sfi_skips_file (cfg : RepomixCfg) (R : Path) (qs : String) :
    ∀ es p s n stat?, wfE es = true → entryMem n (.file stat?) es →
      matchesSearchQuery R qs (p ++ [n]) = false →
      mget (p ++ [n]) (sfiEntries cfg R qs es p s).1.checked
        = mget (p ++ [n]) s.1.checked := by
  intro es
  induction es using fsEntriesRec with
  | hnil => intro p s n stat? hwf hm hmatch; rfl
  | hfile n0 s0 rest ih =>
    intro p s n stat? hwf hm hmatch
    obtain ⟨hcont, _, hwfr⟩ := wfE_cons n0 _ rest hwf
    rcases hm with ⟨hn, ht⟩ | hm
    · subst hn
      injection ht with hs
      subst hs
      simp only [sfiEntries]
      refine (sfi_preserves_subtree cfg R qs rest p _ n (p ++ [n]) hcont
        (pfx_refl (p ++ [n]))).trans ?_
      split
      · rfl
      · rw [if_neg (by simp [hmatch])]
    · have hne : n0 ≠ n := by
        intro h
        subst h
        have hmem := entryMem_name_mem n0 _ rest hm
        simp at hcont
        exact hcont hmem
      have hkey : p ++ [n0] ≠ p ++ [n] :=
        snoc_ne_of_under p n n0 (p ++ [n]) hne (pfx_refl (p ++ [n]))
      simp only [sfiEntries]
      refine (ih p _ n stat? hwfr hm hmatch).trans ?_
      split
      · rfl
      · split
        · split
          · dsimp only
            rw [mget_mset_ne (p ++ [n]) (p ++ [n0]) true _ hkey]
          · rfl
        · rfl
  | hdir n0 cs rest ihc ih =>
    intro p s n stat? hwf hm hmatch
    obtain ⟨hcont, _, hwfr⟩ := wfE_cons n0 _ rest hwf
    rcases hm with ⟨hn, ht⟩ | hm
    · cases ht
    · have hne : n0 ≠ n := by
        intro h
        subst h
        have hmem := entryMem_name_mem n0 _ rest hm
        simp at hcont
        exact hcont hmem
      have hkey : p ++ [n0] ≠ p ++ [n] :=
        snoc_ne_of_under p n n0 (p ++ [n]) hne (pfx_refl (p ++ [n]))
      have hsib : pfx (p ++ [n0]) (p ++ [n]) = false :=
        pfx_snoc_sibling p n n0 (p ++ [n]) hne (pfx_refl (p ++ [n]))
      simp only [sfiEntries]
      refine (ih p _ n stat? hwfr hm hmatch).trans ?_
      split
      · rfl
      · split
        · split
          · dsimp only
            rw [mget_mset_ne (p ++ [n]) (p ++ [n0]) true _ hkey]
          · refine (sfi_mget_outside cfg R qs cs (p ++ [n0]) _ (p ++ [n])
              (Or.inl hsib)).trans ?_
            dsimp only
            rw [mget_mset_ne (p ++ [n]) (p ++ [n0]) true _ hkey]
        · rfl

/-- The filtered selection checks every non-ignored directory child that
transitively contains a matching file. -/
theorem sfi_sets_dir (cfg : RepomixCfg) (R : Path) (qs : String) :
    ∀ es p s n cs1, wfE es = true → entryMem n (.dir cs1) es →
      shouldIgnoreFile cfg R (p ++ [n]) = false →
      directoryHasMatchingFiles cfg R qs (.dir cs1) (p ++ [n]) = true →
      mget (p ++ [n]) (sfiEntries cfg R qs es p s).1.checked = some true := by
  intro es
  induction es using fsEntriesRec with
  | hnil => intro p s n cs1 hwf hm; exact absurd hm (by simp [entryMem])
  | hfile n0 s0 rest ih =>
    intro p s n cs1 hwf hm hig hdhm
    obtain ⟨hcont, _, hwfr⟩ := wfE_cons n0 _ rest hwf
    rcases hm with ⟨hn, ht⟩ | hm
    · cases ht
    · simp only [sfiEntries]
      exact ih p _ n cs1 hwfr hm hig hdhm
  | hdir n0 cs rest ihc ih =>
    intro p s n cs1 hwf hm hig hdhm
    obtain ⟨hcont, _, hwfr⟩ := wfE_cons n0 _ rest hwf
    rcases hm with ⟨hn, ht⟩ | hm
    · subst hn
      injection ht with hcs
      subst hcs
      simp only [sfiEntries]
      rw [if_neg (by simp [hig])]
      rw [if_pos (by exact hdhm)]
      refine (sfi_preserves_subtree cfg R qs rest p _ n (p ++ [n]) hcont
        (pfx_refl (p ++ [n]))).trans ?_
      split
      · dsimp only
        exact mget_mset_self (p ++ [n]) true _
      · refine (sfi_mget_outside cfg R qs cs1 (p ++ [n]) _ (p ++ [n])
          (Or.inr (le_refl _))).trans ?_
        dsimp only
        exact mget_mset_self (p ++ [n]) true _
    · simp only [sfiEntries]
      exact ih p _ n cs1 hwfr hm hig hdhm

/-- The filtered selection neither checks a directory child without a
matching descendant file nor descends into it: its whole subtree keeps
its stored bits. -/
theorem sfi_skips_dir (cfg : RepomixCfg) (R : Path) (qs : String) :
    ∀ es p s n cs1 j, wfE es = true → entryMem n (.dir cs1) es →
      directoryHasMatchingFiles cfg R qs (.dir cs1) (p ++ [n]) = false →
      pfx (p ++ [n]) j = true →
      mget j (sfiEntries cfg R qs es p s).1.checked = mget j s.1.checked := by
  intro es
  induction es using fsEntriesRec with
  | hnil => intro p s n cs1 j hwf hm hdhm hj; rfl
  | hfile n0 s0 rest ih =>
    intro p s n cs1 j hwf hm hdhm hj
    obtain ⟨hcont, _, hwfr⟩ := wfE_cons n0 _ rest hwf
    rcases hm with ⟨hn, ht⟩ | hm
    · cases ht
    · have hne : n0 ≠ n := by
        intro h
        subst h
        have hmem := entryMem_name_mem n0 _ rest hm
        simp at hcont
        exact hcont hmem
      have hkey : p ++ [n0] ≠ j := snoc_ne_of_under p n n0 j hne hj
      simp only [sfiEntries]
      refine (ih p _ n cs1 j hwfr hm hdhm hj).trans ?_
      split
      · rfl
      · split
        · split
          · dsimp only
            rw [mget_mset_ne j (p ++ [n0]) true _ hkey]
          · rfl
        · rfl
  | hdir n0 cs rest ihc ih =>
    intro p s n cs1 j hwf hm hdhm hj
    obtain ⟨hcont, _, hwfr⟩ := wfE_cons n0 _ rest hwf
    rcases hm with ⟨hn, ht⟩ | hm
    · subst hn
      injection ht with hcs
      subst hcs
      simp only [sfiEntries]
      refine (sfi_preserves_subtree cfg R qs rest p _ n j hcont hj).trans ?_
      split
      · rfl
      · rw [if_neg (by simp [hdhm])]
    · have hne : n0 ≠ n := by
        intro h
        subst h
        have hmem := entryMem_name_mem n0 _ rest hm
        simp at hcont
        exact hcont hmem
      have hkey : p ++ [n0] ≠ j := snoc_ne_of_under p n n0 j hne hj
      have hsib : pfx (p ++ [n0]) j = false := pfx_snoc_sibling p n n0 j hne hj
      simp only [sfiEntries]
      refine (ih p _ n cs1 j hwfr hm hdhm hj).trans ?_
      split
      · rfl
      · split
        · split
          · dsimp only
            rw [mget_mset_ne j (p ++ [n0]) true _ hkey]
          · refine (sfi_mget_outside cfg R qs cs (p ++ [n0]) _ j
              (Or.inl hsib)).trans ?_
            dsimp only
            rw [mget_mset_ne j (p ++ [n0]) true _ hkey]
        · rfl


/-- Every path on the visited list after one filtered-selection level is
either an input path or a strict descendant of the level's directory
(pushed by a descent). -/
theorem sfi_visited_new (cfg : RepomixCfg) (R : Path) (qs : String) :
    ∀ es p s v, v ∈ (sfiEntries cfg R qs es p s).2 →
      v ∈ s.2 ∨ (pfx p v = true ∧ p.length < v.length) := by
  intro es
  induction es using fsEntriesRec with
  | hnil => intro p s v hv; exact Or.inl hv
  | hfile n s0 rest ih =>
    intro p s v hv
    simp only [sfiEntries] at hv
    rcases ih p _ v hv with h | h
    · left
      revert h
      split
      · exact id
      · split
        · split
          · exact id
          · exact id
        · exact id
    · exact Or.inr h
  | hdir n cs rest ihc ih =>
    intro p s v hv
    simp only [sfiEntries] at hv
    rcases ih p _ v hv with h | h
    · revert h
      split
      · exact fun h => Or.inl h
      · split
        · split
          · exact fun h => Or.inl h
          · intro h
            rcases ihc (p ++ [n]) _ v h with h2 | h2
            · rcases List.mem_cons.mp h2 with h3 | h3
              · right
                subst h3
                exact ⟨pfx_append p [n], by simp⟩
              · exact Or.inl h3
            · right
              refine ⟨pfx_trans p (p ++ [n]) v (pfx_append p [n]) h2.1, ?_⟩
              have h4 := h2.2
              simp only [List.length_append, List.length_cons,
                List.length_nil] at h4
              omega
        · exact fun h => Or.inl h
    · exact Or.inr h

/-- An active chain of the filtered selection: successive non-ignored
directory entries, each transitively containing a matching file, leading
from a listing down to the listing `csE`; the source's filtered recursion
descends exactly along such chains. -/
def chainTo (cfg : RepomixCfg) (R : Path) (qs : String) :
    List String → FSEntries → Path → FSEntries → Prop
  | [], es, _, csE => es = csE
  | n :: q', es, p, csE => ∃ cs1, entryMem n (.dir cs1) es
      ∧ shouldIgnoreFile cfg R (p ++ [n]) = false
      ∧ dhmEntries cfg R qs cs1 (p ++ [n]) = true
      ∧ chainTo cfg R qs q' cs1 (p ++ [n]) csE

/-- Well-formedness propagates down an active chain. -/
theorem chainTo_wf (cfg : RepomixCfg) (R : Path) (qs : String) :
    ∀ q es p csE, wfE es = true → chainTo cfg R qs q es p csE →
      wfE csE = true := by
  intro q
  induction q with
  | nil =>
    intro es p csE hwf hch
    simp only [chainTo] at hch
    subst hch
    exact hwf
  | cons n q' ih =>
    intro es p csE hwf hch
    simp only [chainTo] at hch
    obtain ⟨cs1, hmem, _, _, hch'⟩ := hch
    have hfind := wfE_entryMem_findEntry n _ es hwf hmem
    have hwfn := wfE_findEntry n _ es hwf hfind
    exact ih cs1 (p ++ [n]) csE hwfn hch'

/-- Chain lift, positive form: a key strictly below the end of an active
chain whose end-level pass always checks it is checked by the pass at the
top of the chain — the recursion really descends the whole chain (each
link is non-ignored and has a matching file, and the visited-list
invariant rules the next link out of the visited set). -/
theorem sfi_chain_const (cfg : RepomixCfg) (R : Path) (qs : String) :
    ∀ q es p s csE j, wfE es = true →
      chainTo cfg R qs q es p csE →
      (∀ v, v ∈ s.2 → pfx v (p ++ q) = true → v.length ≤ p.length) →
      pfx (p ++ q) j = true → (p ++ q).length < j.length →
      (∀ s' : St × List Path,
        mget j (sfiEntries cfg R qs csE (p ++ q) s').1.checked = some true) →
      mget j (sfiEntries cfg R qs es p s).1.checked = some true := by
  intro q
  induction q with
  | nil =>
    intro es p s csE j hwf hch hJ hpfx hlen hP
    simp only [chainTo] at hch
    subst hch
    have h0 := hP s
    rw [List.append_nil] at h0
    exact h0
  | cons n q' ihq =>
    intro es
    induction es using fsEntriesRec with
    | hnil =>
      intro p s csE j hwf hch hJ hpfx hlen hP
      simp only [chainTo] at hch
      obtain ⟨cs1, hmem, _⟩ := hch
      exact absurd hmem (by simp [entryMem])
    | hfile n0 s0 rest ihe =>
      intro p s csE j hwf hch hJ hpfx hlen hP
      simp only [chainTo] at hch
      obtain ⟨cs1, hmem, hig1, hdhm1, hch'⟩ := hch
      rcases hmem with ⟨hn, ht⟩ | hmem
      · cases ht
      · obtain ⟨hcont, _, hwfr⟩ := wfE_cons n0 _ rest hwf
        simp only [sfiEntries]
        refine ihe p _ csE j hwfr ⟨cs1, hmem, hig1, hdhm1, hch'⟩ ?_ hpfx
          hlen hP
        intro v hv hp'
        refine hJ v ?_ hp'
        revert hv
        split
        · exact id
        · split
          · split
            · exact id
            · exact id
          · exact id
    | hdir n0 cs0 rest ihc ihe =>
      intro p s csE j hwf hch hJ hpfx hlen hP
      simp only [chainTo] at hch
      obtain ⟨cs1, hmem, hig1, hdhm1, hch'⟩ := hch
      obtain ⟨hcont, hwfn0, hwfr⟩ := wfE_cons n0 _ rest hwf
      have hkey : p ++ (n :: q') = (p ++ [n]) ++ q' := by simp
      rcases hmem with ⟨hn, ht⟩ | hmem
      · subst hn
        injection ht with hcs
        subst hcs
        have hwfc : wfE cs1 = true := hwfn0
        have hnotmem : ¬ (p ++ [n]) ∈ s.2 := by
          intro hv
          have hp1 : pfx (p ++ [n]) (p ++ (n :: q')) = true := by
            rw [hkey]
            exact pfx_append (p ++ [n]) q'
          have h2 := hJ (p ++ [n]) hv hp1
          simp only [List.length_append, List.length_cons, List.length_nil]
            at h2
          omega
        have hpj : pfx (p ++ [n]) j = true := by
          refine pfx_trans (p ++ [n]) (p ++ (n :: q')) j ?_ hpfx
          rw [hkey]
          exact pfx_append (p ++ [n]) q'
        simp only [sfiEntries]
        rw [if_neg (by simp [hig1])]
        rw [if_pos (by exact hdhm1)]
        rw [if_neg hnotmem]
        refine (sfi_preserves_subtree cfg R qs rest p _ n j hcont
          hpj).trans ?_
        refine ihq cs1 (p ++ [n]) _ csE j hwfc hch' ?_ ?_ ?_ ?_
        · intro v hv hp'
          rcases List.mem_cons.mp hv with h | h
          · subst h
            exact le_refl _
          · have h2 := hJ v h (by rw [hkey]; exact hp')
            simp only [List.length_append, List.length_cons, List.length_nil]
            omega
        · rw [← hkey]
          exact hpfx
        · rw [← hkey]
          exact hlen
        · intro s'
          rw [← hkey]
          exact hP s'
      · have hne : n0 ≠ n := by
          intro hcn
          subst hcn
          have hmem2 := entryMem_name_mem n0 _ rest hmem
          simp at hcont
          exact hcont hmem2
        simp only [sfiEntries]
        refine ihe p _ csE j hwfr ⟨cs1, hmem, hig1, hdhm1, hch'⟩ ?_ hpfx
          hlen hP
        intro v hv hp'
        revert hv
        split
        · exact fun hv => hJ v hv hp'
        · split
          · split
            · exact fun hv => hJ v hv hp'
            · intro hv
              rcases sfi_visited_new cfg R qs cs0 (p ++ [n0]) _ v hv
                with h | h
              · rcases List.mem_cons.mp h with h2 | h2
                · exfalso
                  subst h2
                  rw [hkey] at hp'
                  have hsib := pfx_snoc_sibling p n n0 ((p ++ [n]) ++ q') hne
                    (pfx_append (p ++ [n]) q')
                  rw [hsib] at hp'
                  cases hp'
                · exact hJ v h2 hp'
              · exfalso
                have hpt : pfx (p ++ [n0]) (p ++ (n :: q')) = true :=
                  pfx_trans (p ++ [n0]) v (p ++ (n :: q')) h.1 hp'
                rw [hkey] at hpt
                have hsib := pfx_snoc_sibling p n n0 ((p ++ [n]) ++ q') hne
                  (pfx_append (p ++ [n]) q')
                rw [hsib] at hpt
                cases hpt
          · exact fun hv => hJ v hv hp'

/-- Chain lift, preservation form: a key strictly below the end of an
active chain whose end-level pass leaves it alone keeps its stored state
through the pass at the top of the chain — every other branch of the
descent writes outside that key. -/
theorem sfi_chain_pres (cfg : RepomixCfg) (R : Path) (qs : String) :
    ∀ q es p s csE j, wfE es = true →
      chainTo cfg R qs q es p csE →
      (∀ v, v ∈ s.2 → pfx v (p ++ q) = true → v.length ≤ p.length) →
      pfx (p ++ q) j = true → (p ++ q).length < j.length →
      (∀ s' : St × List Path,
        mget j (sfiEntries cfg R qs csE (p ++ q) s').1.checked
          = mget j s'.1.checked) →
      mget j (sfiEntries cfg R qs es p s).1.checked
        = mget j s.1.checked := by
  intro q
  induction q with
  | nil =>
    intro es p s csE j hwf hch hJ hpfx hlen hP
    simp only [chainTo] at hch
    subst hch
    have h0 := hP s
    rw [List.append_nil] at h0
    exact h0
  | cons n q' ihq =>
    intro es
    induction es using fsEntriesRec with
    | hnil =>
      intro p s csE j hwf hch hJ hpfx hlen hP
      simp only [chainTo] at hch
      obtain ⟨cs1, hmem, _⟩ := hch
      exact absurd hmem (by simp [entryMem])
    | hfile n0 s0 rest ihe =>
      intro p s csE j hwf hch hJ hpfx hlen hP
      simp only [chainTo] at hch
      obtain ⟨cs1, hmem, hig1, hdhm1, hch'⟩ := hch
      rcases hmem with ⟨hn, ht⟩ | hmem
      · cases ht
      · obtain ⟨hcont, _, hwfr⟩ := wfE_cons n0 _ rest hwf
        have hkey : p ++ (n :: q') = (p ++ [n]) ++ q' := by simp
        have hne : n0 ≠ n := by
          intro hcn
          subst hcn
          have hmem2 := entryMem_name_mem n0 _ rest hmem
          simp at hcont
          exact hcont hmem2
        have hpj : pfx (p ++ [n]) j = true := by
          refine pfx_trans (p ++ [n]) (p ++ (n :: q')) j ?_ hpfx
          rw [hkey]
          exact pfx_append (p ++ [n]) q'
        have hkeyj : p ++ [n0] ≠ j := snoc_ne_of_under p n n0 j hne hpj
        simp only [sfiEntries]
        refine (ihe p _ csE j hwfr ⟨cs1, hmem, hig1, hdhm1, hch'⟩ ?_ hpfx
          hlen hP).trans ?_
        · intro v hv hp'
          refine hJ v ?_ hp'
          revert hv
          split
          · exact id
          · split
            · split
              · exact id
              · exact id
            · exact id
        · split
          · rfl
          · split
            · split
              · dsimp only
                rw [mget_mset_ne j (p ++ [n0]) true _ hkeyj]
              · rfl
            · rfl
    | hdir n0 cs0 rest ihc ihe =>
      intro p s csE j hwf hch hJ hpfx hlen hP
      simp only [chainTo] at hch
      obtain ⟨cs1, hmem, hig1, hdhm1, hch'⟩ := hch
      obtain ⟨hcont, hwfn0, hwfr⟩ := wfE_cons n0 _ rest hwf
      have hkey : p ++ (n :: q') = (p ++ [n]) ++ q' := by simp
      rcases hmem with ⟨hn, ht⟩ | hmem
      · subst hn
        injection ht with hcs
        subst hcs
        have hwfc : wfE cs1 = true := hwfn0
        have hnotmem : ¬ (p ++ [n]) ∈ s.2 := by
          intro hv
          have hp1 : pfx (p ++ [n]) (p ++ (n :: q')) = true := by
            rw [hkey]
            exact pfx_append (p ++ [n]) q'
          have h2 := hJ (p ++ [n]) hv hp1
          simp only [List.length_append, List.length_cons, List.length_nil]
            at h2
          omega
        have hpj : pfx (p ++ [n]) j = true := by
          refine pfx_trans (p ++ [n]) (p ++ (n :: q')) j ?_ hpfx
          rw [hkey]
          exact pfx_append (p ++ [n]) q'
        have hkeyn : p ++ [n] ≠ j := by
          intro hc
          subst hc
          simp only [List.length_append, List.length_cons, List.length_nil]
            at hlen
          omega
        simp only [sfiEntries]
        rw [if_neg (by simp [hig1])]
        rw [if_pos (by exact hdhm1)]
        rw [if_neg hnotmem]
        refine (sfi_preserves_subtree cfg R qs rest p _ n j hcont
          hpj).trans ?_
        refine (ihq cs1 (p ++ [n]) _ csE j hwfc hch' ?_ ?_ ?_ ?_).trans ?_
        · intro v hv hp'
          rcases List.mem_cons.mp hv with h | h
          · subst h
            exact le_refl _
          · have h2 := hJ v h (by rw [hkey]; exact hp')
            simp only [List.length_append, List.length_cons, List.length_nil]
            omega
        · rw [← hkey]
          exact hpfx
        · rw [← hkey]
          exact hlen
        · intro s'
          rw [← hkey]
          exact hP s'
        · dsimp only
          rw [mget_mset_ne j (p ++ [n]) true _ hkeyn]
      · have hne : n0 ≠ n := by
          intro hcn
          subst hcn
          have hmem2 := entryMem_name_mem n0 _ rest hmem
          simp at hcont
          exact hcont hmem2
        have hpj : pfx (p ++ [n]) j = true := by
          refine pfx_trans (p ++ [n]) (p ++ (n :: q')) j ?_ hpfx
          rw [hkey]
          exact pfx_append (p ++ [n]) q'
        have hkeyj : p ++ [n0] ≠ j := snoc_ne_of_under p n n0 j hne hpj
        have hsibj : pfx (p ++ [n0]) j = false :=
          pfx_snoc_sibling p n n0 j hne hpj
        simp only [sfiEntries]
        refine (ihe p _ csE j hwfr ⟨cs1, hmem, hig1, hdhm1, hch'⟩ ?_ hpfx
          hlen hP).trans ?_
        · intro v hv hp'
          revert hv
          split
          · exact fun hv => hJ v hv hp'
          · split
            · split
              · exact fun hv => hJ v hv hp'
              · intro hv
                rcases sfi_visited_new cfg R qs cs0 (p ++ [n0]) _ v hv
                  with h | h
                · rcases List.mem_cons.mp h with h2 | h2
                  · exfalso
                    subst h2
                    rw [hkey] at hp'
                    have hsib := pfx_snoc_sibling p n n0 ((p ++ [n]) ++ q')
                      hne (pfx_append (p ++ [n]) q')
                    rw [hsib] at hp'
                    cases hp'
                  · exact hJ v h2 hp'
                · exfalso
                  have hpt : pfx (p ++ [n0]) (p ++ (n :: q')) = true :=
                    pfx_trans (p ++ [n0]) v (p ++ (n :: q')) h.1 hp'
                  rw [hkey] at hpt
                  have hsib := pfx_snoc_sibling p n n0 ((p ++ [n]) ++ q')
                    hne (pfx_append (p ++ [n]) q')
                  rw [hsib] at hpt
                  cases hpt
            · exact fun hv => hJ v hv hp'
        · split
          · rfl
          · split
            · split
              · dsimp only
                rw [mget_mset_ne j (p ++ [n0]) true _ hkeyj]
              · refine (sfi_mget_outside cfg R qs cs0 (p ++ [n0]) _ j
                  (Or.inl hsibj)).trans ?_
                dsimp only
                rw [mget_mset_ne j (p ++ [n0]) true _ hkeyj]
            · rfl

/-- C7 counterexample: with query `docs` and a workspace holding the
directory `docs` containing only `readme.md`, the directory's own
relative path matches the filter predicate and it is not ignored, yet
`selectAll()` does not check it: `selectFilteredItems` only consults
`directoryHasMatchingFiles` (a transitive file match) and ignores the
directory's own-path match the claim includes. -/
theorem c7_own_path_match_counterexample :
    matchesSearchQuery ["w"] "docs" (["w"] ++ ["docs"]) = true
    ∧ shouldIgnoreFile ⟨[], Option.none⟩ ["w"] (["w"] ++ ["docs"]) = false
    ∧ mget (["w"] ++ ["docs"])
        (selectAll ⟨[], Option.none⟩ ["w"] 100 "docs"
          (.dir (.cons "docs"
            (.dir (.cons "readme.md" (.file (some 10)) .nil)) .nil))
          ⟨[], [], [], 0⟩).checked = Option.none := by
  exact ⟨by decide, by decide, by decide⟩

/-- C7 amended: with an active search filter, `selectAll` checks exactly
the non-ignored files passing the size check whose name (or relative
path, for queries holding a separator) matches the compiled
case-insensitive query, and checks a non-ignored directory precisely
when it transitively contains a matching non-excluded file — a
directory's own-path match is NOT considered, so a directory whose name
matches but which holds no matching file is neither checked nor
descended into; non-matching files and the whole subtree of a directory
without matching descendants keep their stored state.  All four parts
hold at every depth: the quantified `chainTo` chain is any descent path
of non-ignored directories with matching descendants, so the file and
directory in question may sit arbitrarily deep in the tree. -/
theorem c7_filtered_selectAll (cfg : RepomixCfg) (R : Path) (now : Nat)
    (qs : String) (cs : FSEntries) (st : St)
    (hq : ¬(qs = "")) (hwf : wfE cs = true) :
    (∀ q csE, chainTo cfg R qs q cs R csE →
      ∀ m stat?, entryMem m (.file stat?) csE →
        shouldIgnoreFile cfg R (R ++ q ++ [m]) = false →
        matchesSearchQuery R qs (R ++ q ++ [m]) = true →
        isFileSizeValid cfg stat? = true →
        mget (R ++ q ++ [m]) (selectAll cfg R now qs (.dir cs) st).checked
          = some true)
    ∧ (∀ q csE, chainTo cfg R qs q cs R csE →
      ∀ m stat?, entryMem m (.file stat?) csE →
        matchesSearchQuery R qs (R ++ q ++ [m]) = false →
        mget (R ++ q ++ [m]) (selectAll cfg R now qs (.dir cs) st).checked
          = mget (R ++ q ++ [m]) st.checked)
    ∧ (∀ q csE, chainTo cfg R qs q cs R csE →
      ∀ n cs1, entryMem n (.dir cs1) csE →
        shouldIgnoreFile cfg R (R ++ q ++ [n]) = false →
        directoryHasMatchingFiles cfg R qs (.dir cs1) (R ++ q ++ [n]) = true →
        mget (R ++ q ++ [n]) (selectAll cfg R now qs (.dir cs) st).checked
          = some true)
    ∧ (∀ q csE, chainTo cfg R qs q cs R csE →
      ∀ n cs1 j, entryMem n (.dir cs1) csE →
        directoryHasMatchingFiles cfg R qs (.dir cs1) (R ++ q ++ [n]) = false →
        pfx (R ++ q ++ [n]) j = true →
        mget j (selectAll cfg R now qs (.dir cs) st).checked
          = mget j st.checked) := by
  have hSA : (selectAll cfg R now qs (.dir cs) st).checked
      = (sfiEntries cfg R qs cs R (st, [R])).1.checked := by
    unfold selectAll
    dsimp only
    rw [if_neg hq]
    unfold selectFilteredItems
    dsimp only
    rw [if_neg (List.not_mem_nil R)]
  have hJ0 : ∀ (q : List String) v, v ∈ [R] → pfx v (R ++ q) = true →
      v.length ≤ R.length := by
    intro q v hv _
    simp only [List.mem_singleton] at hv
    subst hv
    exact le_refl _
  refine ⟨?_, ?_, ?_, ?_⟩
  · intro q csE hch m stat? hm hig hmatch hsize
    rw [hSA]
    have hwfE := chainTo_wf cfg R qs q cs R csE hwf hch
    refine sfi_chain_const cfg R qs q cs R (st, [R]) csE (R ++ q ++ [m]) hwf
      hch (hJ0 q) (pfx_append (R ++ q) [m]) ?_ ?_
    · simp only [List.length_append, List.length_cons, List.length_nil]
      omega
    · intro s'
      exact sfi_sets_file cfg R qs csE (R ++ q) s' m stat? hwfE hm hig
        hmatch hsize
  · intro q csE hch m stat? hm hmatch
    rw [hSA]
    have hwfE := chainTo_wf cfg R qs q cs R csE hwf hch
    refine sfi_chain_pres cfg R qs q cs R (st, [R]) csE (R ++ q ++ [m]) hwf
      hch (hJ0 q) (pfx_append (R ++ q) [m]) ?_ ?_
    · simp only [List.length_append, List.length_cons, List.length_nil]
      omega
    · intro s'
      exact sfi_skips_file cfg R qs csE (R ++ q) s' m stat? hwfE hm hmatch
  · intro q csE hch n cs1 hm hig hdhm
    rw [hSA]
    have hwfE := chainTo_wf cfg R qs q cs R csE hwf hch
    refine sfi_chain_const cfg R qs q cs R (st, [R]) csE (R ++ q ++ [n]) hwf
      hch (hJ0 q) (pfx_append (R ++ q) [n]) ?_ ?_
    · simp only [List.length_append, List.length_cons, List.length_nil]
      omega
    · intro s'
      exact sfi_sets_dir cfg R qs csE (R ++ q) s' n cs1 hwfE hm hig hdhm
  · intro q csE hch n cs1 j hm hdhm hj
    rw [hSA]
    have hwfE := chainTo_wf cfg R qs q cs R csE hwf hch
    have hpfx : pfx (R ++ q) j = true :=
      pfx_trans (R ++ q) (R ++ q ++ [n]) j (pfx_append (R ++ q) [n]) hj
    have hlen : (R ++ q).length < j.length := by
      have h1 := pfx_length_le (R ++ q ++ [n]) j hj
      simp only [List.length_append, List.length_cons, List.length_nil] at h1
      simp only [List.length_append]
      omega
    refine sfi_chain_pres cfg R qs q cs R (st, [R]) csE j hwf hch (hJ0 q)
      hpfx hlen ?_
    intro s'
    exact sfi_skips_dir cfg R qs csE (R ++ q) s' n cs1 j hwfE hm hdhm hj

/-- C7 witness: with query `ts` and the workspace tree `src/a.ts`, the
filtered `selectAll` checks the depth-two file `a.ts` through the
descended chain `src`. -/
theorem c7_filtered_selectAll_witness :
    mget (["w"] ++ ["src"] ++ ["a.ts"])
      (selectAll ⟨[], Option.none⟩ ["w"] 100 "ts"
        (.dir (.cons "src" (.dir (.cons "a.ts" (.file (some 10)) .nil)) .nil))
        ⟨[], [], [], 0⟩).checked = some true := by
  exact (c7_filtered_selectAll ⟨[], Option.none⟩ ["w"] 100 "ts"
    (.cons "src" (.dir (.cons "a.ts" (.file (some 10)) .nil)) .nil)
    ⟨[], [], [], 0⟩ (by decide) (by decide)).1 ["src"]
    (.cons "a.ts" (.file (some 10)) .nil)
    ⟨.cons "a.ts" (.file (some 10)) .nil, Or.inl ⟨rfl, rfl⟩, by decide,
      by decide, rfl⟩
    "a.ts" (some 10) (Or.inl ⟨rfl, rfl⟩) (by decide) (by decide) (by decide)


/-!
## Cyclic file-system model (toward C6)

The tree model above cannot represent symlink cycles.  For the
termination claim, `updateChildrenCheckState` is embedded a second time
over an oracle view of the file system: `readDir` returns the listing of
any absolute path (entries as name / is-directory pairs) and `stat?` its
stat result.  Nothing constrains the oracle, so cyclic and infinite
directory graphs are included.  The traversal carries explicit fuel; the
theorems show the computed state is the same for every fuel of at least
51, which is the termination content of the visited-set and size guards:
the guards bound the recursion depth regardless of cycles.
-/

/-- Oracle view of the file system (possibly cyclic via symlinks). -/
structure FSW where
  readDir : Path → List (String × Bool)
  stat? : Path → Option Nat

/-- File pass of `updateChildrenCheckState` over the oracle (identical
to `updateChildrenFiles`, statting through the oracle). -/
def updWFiles (fsw : FSW) (cfg : RepomixCfg) (R : Path) (now : Nat)
    (ck : Bool) : List (String × Bool) → Path → St → St
  | [], _, st => st
  | (_, true) :: rest, p, st => updWFiles fsw cfg R now ck rest p st
  | (n, false) :: rest, p, st =>
    let p₁ := p ++ [n]
    let vs := valEntry cfg R now true (fsw.stat? p₁) p₁ st
    let st₁ :=
      if !vs.1.1 && vs.1.2 then
        { vs.2 with checked := mset p₁ ck vs.2.checked }
      else vs.2
    updWFiles fsw cfg R now ck rest p st₁

/-- Entry steps of one propagation call over the oracle: the visited-set
check, the visited-size guard (`> 50`), the invalidation and the file
pass (identical to `updateChildrenStep`). -/
def updWStep (fsw : FSW) (cfg : RepomixCfg) (R : Path) (now : Nat)
    (ck : Bool) (p : Path) (s : St × List Path) : (St × List Path) × Bool :=
  if p ∈ s.2 then ((s.1, s.2), false)
  else
    let visited' := p :: s.2
    if visited'.length > 50 then ((s.1, visited'), false)
    else
      let st := invalidateDirectory p s.1
      let st := updWFiles fsw cfg R now ck (fsw.readDir p) p st
      ((st, visited'), true)

/-- Directory pass over the oracle, parameterised by the recursive
descent (identical to `updateChildrenDirs`). -/
def dirsPassW (fsw : FSW) (cfg : RepomixCfg) (R : Path) (now : Nat)
    (ck : Bool) (descend : Path → (St × List Path) → (St × List Path)) :
    List (String × Bool) → Path → (St × List Path) → (St × List Path)
  | [], _, s => s
  | (_, false) :: rest, p, s => dirsPassW fsw cfg R now ck descend rest p s
  | (n, true) :: rest, p, s =>
    let p₁ := p ++ [n]
    let vs := valDirEntry cfg R now p₁ s.1
    let s' :=
      if vs.1 then (vs.2, s.2)
      else
        let st := { vs.2 with checked := mset p₁ ck vs.2.checked }
        let sg := updWStep fsw cfg R now ck p₁ (st, s.2)
        if sg.2 then descend p₁ sg.1 else sg.1
    dirsPassW fsw cfg R now ck descend rest p s'

/-- The fuelled directory pass over the oracle: the pass at one level,
whose descent — taken after a successful step on the child, exactly as
`updateChildrenDirs` recurses — is the pass over the child\x27s own listing
at the next fuel.  The fuel bounds only the depth; the guards keep it
from ever running out (shown below). -/
def updWD (fsw : FSW) (cfg : RepomixCfg) (R : Path) (now : Nat) (ck : Bool) :
    Nat → List (String × Bool) → Path → (St × List Path) → (St × List Path)
  | 0, _, _, s => s
  | f + 1, es, p, s =>
    dirsPassW fsw cfg R now ck
      (fun p' s' => updWD fsw cfg R now ck f (fsw.readDir p') p' s') es p s

/-- `updateChildrenCheckState` on a directory over the oracle: the entry
step, then the directory pass on the listing. -/
def updW (fsw : FSW) (cfg : RepomixCfg) (R : Path) (now : Nat) (ck : Bool)
    (f : Nat) (p : Path) (s : St × List Path) : St × List Path :=
  let sg := updWStep fsw cfg R now ck p s
  if sg.2 then updWD fsw cfg R now ck f (fsw.readDir p) p sg.1 else sg.1

/-- The step only grows the visited list. -/
theorem updWStep_visited_mono (fsw : FSW) (cfg : RepomixCfg) (R : Path)
    (now : Nat) (ck : Bool) (p : Path) (s : St × List Path) :
    s.2.length ≤ (updWStep fsw cfg R now ck p s).1.2.length := by
  unfold updWStep
  by_cases h1 : p ∈ s.2
  · rw [if_pos h1]
  · rw [if_neg h1]
    dsimp only
    by_cases h2 : (p :: s.2).length > 50
    · rw [if_pos h2]
      simp
    · rw [if_neg h2]
      simp

/-- The guarded step: on its visited branch nothing happens. -/
theorem updWStep_visited_noop (fsw : FSW) (cfg : RepomixCfg) (R : Path)
    (now : Nat) (ck : Bool) (p : Path) (s : St × List Path) (hp : p ∈ s.2) :
    updWStep fsw cfg R now ck p s = ((s.1, s.2), false) := by
  unfold updWStep
  rw [if_pos hp]

/-- Once 50 paths have been visited the step refuses every further
directory — whatever its branch — and leaves the engine state alone. -/
theorem updWStep_guard (fsw : FSW) (cfg : RepomixCfg) (R : Path)
    (now : Nat) (ck : Bool) (p : Path) (s : St × List Path)
    (h : 50 ≤ s.2.length) :
    (updWStep fsw cfg R now ck p s).1.1 = s.1
    ∧ (updWStep fsw cfg R now ck p s).2 = false
    ∧ 50 ≤ (updWStep fsw cfg R now ck p s).1.2.length := by
  unfold updWStep
  by_cases h1 : p ∈ s.2
  · rw [if_pos h1]
    exact ⟨rfl, rfl, h⟩
  · rw [if_neg h1]
    dsimp only
    rw [if_pos (by simp only [List.length_cons]; omega)]
    refine ⟨rfl, rfl, by simp only [List.length_cons]; omega⟩

/-- A successful step appended exactly the current path to the visited
list, within the guard. -/
theorem updWStep_go (fsw : FSW) (cfg : RepomixCfg) (R : Path)
    (now : Nat) (ck : Bool) (p : Path) (s : St × List Path)
    (h : (updWStep fsw cfg R now ck p s).2 = true) :
    (updWStep fsw cfg R now ck p s).1.2 = p :: s.2
    ∧ (p :: s.2).length ≤ 50 := by
  unfold updWStep at h ⊢
  by_cases h1 : p ∈ s.2
  · rw [if_pos h1] at h ⊢
    cases h
  · rw [if_neg h1] at h ⊢
    dsimp only at h ⊢
    by_cases h2 : (p :: s.2).length > 50
    · rw [if_pos h2] at h
      cases h
    · rw [if_neg h2] at h ⊢
      exact ⟨rfl, by omega⟩

/-- The directory pass only grows the visited list (given a descent that
does). -/
theorem dirsPassW_visited_mono (fsw : FSW) (cfg : RepomixCfg) (R : Path)
    (now : Nat) (ck : Bool)
    (descend : Path → (St × List Path) → (St × List Path))
    (hd : ∀ p' s', s'.2.length ≤ (descend p' s').2.length) :
    ∀ es p s, s.2.length ≤
      (dirsPassW fsw cfg R now ck descend es p s).2.length := by
  intro es
  induction es with
  | nil => intro p s; exact le_refl _
  | cons e rest ih =>
    obtain ⟨n, isdir⟩ := e
    intro p s
    cases isdir
    · simp only [dirsPassW]
      exact ih p s
    · simp only [dirsPassW]
      refine le_trans ?_ (ih p _)
      split
      · exact le_refl _
      · split
        · refine le_trans ?_ (hd _ _)
          exact updWStep_visited_mono fsw cfg R now ck (p ++ [n])
            ({ (valDirEntry cfg R now (p ++ [n]) s.1).2 with
               checked := mset (p ++ [n]) ck
                 (valDirEntry cfg R now (p ++ [n]) s.1).2.checked }, s.2)
        · exact updWStep_visited_mono fsw cfg R now ck (p ++ [n])
            ({ (valDirEntry cfg R now (p ++ [n]) s.1).2 with
               checked := mset (p ++ [n]) ck
                 (valDirEntry cfg R now (p ++ [n]) s.1).2.checked }, s.2)

/-- The fuelled directory pass only grows the visited list. -/
theorem updWD_visited_mono (fsw : FSW) (cfg : RepomixCfg) (R : Path)
    (now : Nat) (ck : Bool) :
    ∀ f es p s, s.2.length ≤ (updWD fsw cfg R now ck f es p s).2.length := by
  intro f
  induction f with
  | zero => intro es p s; exact le_refl _
  | succ f ih =>
    intro es p s
    simp only [updWD]
    exact dirsPassW_visited_mono fsw cfg R now ck _
      (fun p' s' => ih (fsw.readDir p') p' s') es p s

/-- The agreement relation between two traversal states: equal engine
states, with either equal visited lists or both already past the guard
threshold (where every step is inert on the engine state). -/
def Rrel (s₁ s₂ : St × List Path) : Prop :=
  s₁.1 = s₂.1 ∧ (s₁.2 = s₂.2 ∨ (50 ≤ s₁.2.length ∧ 50 ≤ s₂.2.length))

/-- Congruence of one directory-pass level under the agreement relation,
for two descents that agree on the states they can actually receive
(pushed past the guard check, so at most 50 visited paths). -/
theorem dirsPassW_congr (fsw : FSW) (cfg : RepomixCfg) (R : Path)
    (now : Nat) (ck : Bool) (a b : Nat)
    (IH : ∀ p' s₁' s₂', Rrel s₁' s₂' →
      s₁'.2.length ≤ 50 → s₂'.2.length ≤ 50 →
      51 ≤ a + s₁'.2.length → 51 ≤ b + s₂'.2.length →
      Rrel (updWD fsw cfg R now ck a (fsw.readDir p') p' s₁')
        (updWD fsw cfg R now ck b (fsw.readDir p') p' s₂')) :
    ∀ es p s₁ s₂, Rrel s₁ s₂ → 50 ≤ a + s₁.2.length →
      50 ≤ b + s₂.2.length →
      Rrel (dirsPassW fsw cfg R now ck
          (fun p' s' => updWD fsw cfg R now ck a (fsw.readDir p') p' s') es p s₁)
        (dirsPassW fsw cfg R now ck
          (fun p' s' => updWD fsw cfg R now ck b (fsw.readDir p') p' s') es p s₂) := by
  intro es
  induction es with
  | nil => intro p s₁ s₂ hR h₁ h₂; exact hR
  | cons e rest ih =>
    obtain ⟨n, isdir⟩ := e
    intro p s₁ s₂ hR h₁ h₂
    obtain ⟨hst, hvis⟩ := hR
    cases isdir
    · simp only [dirsPassW]
      exact ih p s₁ s₂ ⟨hst, hvis⟩ h₁ h₂
    · simp only [dirsPassW]
      rw [← hst]
      by_cases hig : (valDirEntry cfg R now (p ++ [n]) s₁.1).1 = true
      · rw [if_pos hig, if_pos hig]
        exact ih p _ _ ⟨rfl, hvis⟩ h₁ h₂
      · rw [if_neg hig, if_neg hig]
        set ST : St := { (valDirEntry cfg R now (p ++ [n]) s₁.1).2 with
          checked := mset (p ++ [n]) ck
            (valDirEntry cfg R now (p ++ [n]) s₁.1).2.checked } with hST
        rcases hvis with hveq | ⟨hl₁, hl₂⟩
        · rw [← hveq]
          rw [← hveq] at h₂
          by_cases hgo : (updWStep fsw cfg R now ck (p ++ [n])
              (ST, s₁.2)).2 = true
          · rw [if_pos hgo, if_pos hgo]
            obtain ⟨hg1, hg2⟩ :=
              updWStep_go fsw cfg R now ck (p ++ [n]) (ST, s₁.2) hgo
            have hlen : (updWStep fsw cfg R now ck (p ++ [n])
                (ST, s₁.2)).1.2.length = s₁.2.length + 1 := by
              rw [hg1]
              simp
            have hcap : (updWStep fsw cfg R now ck (p ++ [n])
                (ST, s₁.2)).1.2.length ≤ 50 := by
              rw [hg1]
              simpa using hg2
            have hRd := IH (p ++ [n]) _ _
              (⟨rfl, Or.inl rfl⟩ : Rrel
                (updWStep fsw cfg R now ck (p ++ [n]) (ST, s₁.2)).1
                (updWStep fsw cfg R now ck (p ++ [n]) (ST, s₁.2)).1)
              hcap hcap (by rw [hlen]; omega) (by rw [hlen]; omega)
            refine ih p _ _ hRd ?_ ?_
            · have hm := updWD_visited_mono fsw cfg R now ck a
                (fsw.readDir (p ++ [n])) (p ++ [n])
                (updWStep fsw cfg R now ck (p ++ [n]) (ST, s₁.2)).1
              omega
            · have hm := updWD_visited_mono fsw cfg R now ck b
                (fsw.readDir (p ++ [n])) (p ++ [n])
                (updWStep fsw cfg R now ck (p ++ [n]) (ST, s₁.2)).1
              omega
          · rw [if_neg hgo, if_neg hgo]
            have hm := updWStep_visited_mono fsw cfg R now ck (p ++ [n])
              (ST, s₁.2)
            refine ih p _ _ ⟨rfl, Or.inl rfl⟩ ?_ ?_
            · dsimp only at hm
              omega
            · dsimp only at hm
              omega
        · obtain ⟨hA1, hA2, hA3⟩ := updWStep_guard fsw cfg R now ck (p ++ [n])
            (ST, s₁.2) hl₁
          obtain ⟨hB1, hB2, hB3⟩ := updWStep_guard fsw cfg R now ck (p ++ [n])
            (ST, s₂.2) hl₂
          rw [hA2, hB2]
          simp only [Bool.false_eq_true, if_false]
          refine ih p _ _ ⟨hA1.trans hB1.symm, Or.inr ⟨hA3, hB3⟩⟩ ?_ ?_
          · omega
          · omega

/-- The fuelled directory pass computes agreeing states for any two
sufficient fuels: every descent pushes a fresh path onto the visited
list and descents stop at 50 visited paths, so the fuel never runs out
— on every oracle, cyclic ones included. -/
theorem updWD_congr (fsw : FSW) (cfg : RepomixCfg) (R : Path) (now : Nat)
    (ck : Bool) :
    ∀ a b es p s₁ s₂, 1 ≤ a → 1 ≤ b → Rrel s₁ s₂ →
      51 ≤ a + s₁.2.length → 51 ≤ b + s₂.2.length →
      Rrel (updWD fsw cfg R now ck a es p s₁)
        (updWD fsw cfg R now ck b es p s₂) := by
  intro a
  induction a with
  | zero => intro b es p s₁ s₂ h1; exact absurd h1 (by omega)
  | succ a iha =>
    intro b es p s₁ s₂ h1 h2 hR hb₁ hb₂
    cases b with
    | zero => exact absurd h2 (by omega)
    | succ b =>
      simp only [updWD]
      exact dirsPassW_congr fsw cfg R now ck a b
        (fun p' s₁' s₂' hR' hcap1 hcap2 hb1' hb2' =>
          iha b (fsw.readDir p') p' s₁' s₂' (by omega) (by omega) hR' hb1'
            hb2')
        es p s₁ s₂ hR (by omega) (by omega)

/-- The whole traversal computes agreeing engine states for any two
sufficient fuels. -/
theorem updW_congr (fsw : FSW) (cfg : RepomixCfg) (R : Path) (now : Nat)
    (ck : Bool) (f₁ f₂ : Nat) (p : Path) (s : St × List Path)
    (hc₁ : 1 ≤ f₁) (hc₂ : 1 ≤ f₂)
    (h₁ : 51 ≤ f₁ + s.2.length) (h₂ : 51 ≤ f₂ + s.2.length) :
    Rrel (updW fsw cfg R now ck f₁ p s) (updW fsw cfg R now ck f₂ p s) := by
  unfold updW
  dsimp only
  by_cases hgo : (updWStep fsw cfg R now ck p s).2 = true
  · rw [if_pos hgo, if_pos hgo]
    obtain ⟨hg1, hg2⟩ := updWStep_go fsw cfg R now ck p s hgo
    refine updWD_congr fsw cfg R now ck f₁ f₂ (fsw.readDir p) p _ _ hc₁ hc₂
      ⟨rfl, Or.inl rfl⟩ ?_ ?_
    · rw [hg1]
      simp only [List.length_cons]
      omega
    · rw [hg1]
      simp only [List.length_cons]
      omega
  · rw [if_neg hgo, if_neg hgo]
    exact ⟨rfl, Or.inl rfl⟩

/-- A deep chain: directories c01 ⊂ c02 ⊂ … ⊂ c51 nested 51 levels, and
a shallow sibling directory `z` holding one small eligible file. -/
def deepChain : FSEntries :=
  .cons "c01" (.dir (.cons "c02" (.dir (.cons "c03" (.dir (.cons "c04" (.dir (.cons "c05" (.dir (.cons "c06" (.dir (.cons "c07" (.dir (.cons "c08" (.dir (.cons "c09" (.dir (.cons "c10" (.dir (.cons "c11" (.dir (.cons "c12" (.dir (.cons "c13" (.dir (.cons "c14" (.dir (.cons "c15" (.dir (.cons "c16" (.dir (.cons "c17" (.dir (.cons "c18" (.dir (.cons "c19" (.dir (.cons "c20" (.dir (.cons "c21" (.dir (.cons "c22" (.dir (.cons "c23" (.dir (.cons "c24" (.dir (.cons "c25" (.dir (.cons "c26" (.dir (.cons "c27" (.dir (.cons "c28" (.dir (.cons "c29" (.dir (.cons "c30" (.dir (.cons "c31" (.dir (.cons "c32" (.dir (.cons "c33" (.dir (.cons "c34" (.dir (.cons "c35" (.dir (.cons "c36" (.dir (.cons "c37" (.dir (.cons "c38" (.dir (.cons "c39" (.dir (.cons "c40" (.dir (.cons "c41" (.dir (.cons "c42" (.dir (.cons "c43" (.dir (.cons "c44" (.dir (.cons "c45" (.dir (.cons "c46" (.dir (.cons "c47" (.dir (.cons "c48" (.dir (.cons "c49" (.dir (.cons "c50" (.dir (.cons "c51" (.dir .nil) .nil)) .nil)) .nil)) .nil)) .nil)) .nil)) .nil)) .nil)) .nil)) .nil)) .nil)) .nil)) .nil)) .nil)) .nil)) .nil)) .nil)) .nil)) .nil)) .nil)) .nil)) .nil)) .nil)) .nil)) .nil)) .nil)) .nil)) .nil)) .nil)) .nil)) .nil)) .nil)) .nil)) .nil)) .nil)) .nil)) .nil)) .nil)) .nil)) .nil)) .nil)) .nil)) .nil)) .nil)) .nil)) .nil)) .nil)) .nil)) .nil)) .nil))
    (.cons "z" (.dir (.cons "f" (.file (some 1)) .nil)) .nil)

set_option maxRecDepth 100000 in
/-- C6 counterexample, inside the claim's own domain (depth greater than
50 levels): the guard compares the TOTAL number of visited paths against
50, and once tripped it stops every further descent in the whole call,
not just the branch that tripped it.  After toggling the root of
`deepChain`, the chain has been descended (c01 and the chain directory at
depth 49 have their bits set), the guard trips deep in the chain, and
then the shallow sibling `z` — depth 1, nowhere near any 50-level depth
bound and entirely non-cyclic — gets its directory bit written by the
pass but its one eligible file is never selected: the portion within the
guard is NOT fully selected and descent did not stop "only that
branch". -/
theorem c6_visited_guard_counterexample :
    mget ["w", "D", "c01"]
      (toggleChecked ⟨[], Option.none⟩ ["w"] 100 (.dir deepChain) ["w", "D"]
        ⟨[], [], [], 0⟩).checked = some true
    ∧ mget ["w", "D", "c01", "c02", "c03", "c04", "c05", "c06", "c07", "c08", "c09", "c10", "c11", "c12", "c13", "c14", "c15", "c16", "c17", "c18", "c19", "c20", "c21", "c22", "c23", "c24", "c25", "c26", "c27", "c28", "c29", "c30", "c31", "c32", "c33", "c34", "c35", "c36", "c37", "c38", "c39", "c40", "c41", "c42", "c43", "c44", "c45", "c46", "c47", "c48", "c49"]
      (toggleChecked ⟨[], Option.none⟩ ["w"] 100 (.dir deepChain) ["w", "D"]
        ⟨[], [], [], 0⟩).checked = some true
    ∧ mget ["w", "D", "z"]
      (toggleChecked ⟨[], Option.none⟩ ["w"] 100 (.dir deepChain) ["w", "D"]
        ⟨[], [], [], 0⟩).checked = some true
    ∧ mget ["w", "D", "z", "f"]
      (toggleChecked ⟨[], Option.none⟩ ["w"] 100 (.dir deepChain) ["w", "D"]
        ⟨[], [], [], 0⟩).checked = Option.none := by
  exact ⟨by decide, by decide, by decide, by decide⟩


/-- C6 amended: the propagation call keeps a visited-absolute-paths set
so no directory is processed twice in one call; the guard compares the
TOTAL size of that set against 50 — once more than 50 paths have been
visited (at any depth or width) every further step refuses to process
its directory, leaving the engine state alone, so descent stops
everywhere, not just in one branch; and on every file-system oracle —
including ones with symlink cycles or unbounded depth — the traversal
computes the same engine state for every fuel of at least 51, the
termination content of the guards. -/
theorem c6_guard_terminates (fsw : FSW) (cfg : RepomixCfg) (R : Path)
    (now : Nat) (ck : Bool) (f₁ f₂ : Nat) (p : Path) (st : St)
    (h₁ : 51 ≤ f₁) (h₂ : 51 ≤ f₂) :
    (∀ p' s, p' ∈ s.2 →
        updWStep fsw cfg R now ck p' s = ((s.1, s.2), false))
    ∧ (∀ p' (s : St × List Path), 50 ≤ s.2.length →
        (updWStep fsw cfg R now ck p' s).1.1 = s.1
        ∧ (updWStep fsw cfg R now ck p' s).2 = false)
    ∧ (updW fsw cfg R now ck f₁ p (st, [])).1
        = (updW fsw cfg R now ck f₂ p (st, [])).1 := by
  refine ⟨?_, ?_, ?_⟩
  · intro p' s hp
    exact updWStep_visited_noop fsw cfg R now ck p' s hp
  · intro p' s h
    obtain ⟨hA1, hA2, _⟩ := updWStep_guard fsw cfg R now ck p' s h
    exact ⟨hA1, hA2⟩
  · have h := updW_congr fsw cfg R now ck f₁ f₂ p (st, ([] : List Path))
      (by omega) (by omega)
      (by simp only [List.length_nil]; omega)
      (by simp only [List.length_nil]; omega)
    exact h.1

/-- C6 witness: on the trivial oracle the traversal from an empty state
agrees at fuels 51 and 52. -/
theorem c6_guard_terminates_witness :
    (updW ⟨fun _ => [], fun _ => Option.none⟩ ⟨[], Option.none⟩ ["w"] 100
        true 51 ["w"] (⟨[], [], [], 0⟩, [])).1
      = (updW ⟨fun _ => [], fun _ => Option.none⟩ ⟨[], Option.none⟩ ["w"] 100
          true 52 ["w"] (⟨[], [], [], 0⟩, [])).1 := by
  exact (c6_guard_terminates ⟨fun _ => [], fun _ => Option.none⟩
    ⟨[], Option.none⟩ ["w"] 100 true 51 52 ["w"] ⟨[], [], [], 0⟩
    (by decide) (by decide)).2.2

end Repomix
